import Mathlib

/-!
# binarySearchEval: array, B+tree and ART point lookups over one record table

A shallow embedding of `binary_search.cpp`.

* `uint64_t` values are natural numbers, every arithmetic result that the
  program computes in 64 bits is reduced modulo `2 ^ 64`.
* An array obtained with `new uint64_t[n]` is a `List Nat` of length `n` whose
  initial content is arbitrary; a read or a write outside the list is the
  error `Err.outOfBounds`.
* A `while` loop is run with a bound on the number of executions of its body
  (`fuel`); running out of it is the error `Err.outOfFuel`.
* A counted `for` loop `for (i = 0; i < n; i++)` is `forLoop`.
* The record count `kNumRecords` is the parameter `N` of every definition; the
  program fixes it to `kNumRecords`.
-/

namespace BinarySearchEval

/-! ## Constants -/

/-- Width of a record, in 64-bit words. -/
def kRecordSize : Nat := 8

/-- Number of records of the table in the program. -/
def kNumRecords : Nat := 100000000

/-- Number of lookups of one measurement in the program. -/
def kTestSize : Nat := 10000000

/-- Number of values of a `uint64_t`. -/
def U64 : Nat := 2 ^ 64

/-! ## Memory and control -/

/-- The ways in which a run can fail to produce a value. -/
inductive Err where
  | outOfBounds
  | outOfFuel
  deriving DecidableEq, Repr

deriving instance DecidableEq for Except

/-- Read of `mem[i]`. -/
def read (mem : List Nat) (i : Nat) : Except Err Nat :=
  match mem[i]? with
  | some v => .ok v
  | none => .error .outOfBounds

/-- Write `mem[i] = v`. -/
def write (mem : List Nat) (i v : Nat) : Except Err (List Nat) :=
  if i < mem.length then .ok (mem.set i v) else .error .outOfBounds

/-- The loop `for (uint64_t i = 0; i < n; i++) body(i)` on a state `σ`. -/
def forLoop {σ : Type} (body : Nat → σ → Except Err σ) : Nat → σ → Except Err σ
  | 0, s => .ok s
  | n + 1, s => forLoop body n s >>= body n

/-! ## The two binary searches -/

/-- The loop of `primary_binary_search`, entered with the bounds `l` and `r`;
`fuel` bounds the number of executions of the loop body. -/
def primary_loop (N : Nat) (table : List Nat) (target : Nat) :
    Nat → Nat → Nat → Except Err Nat
  | fuel, l, r =>
    if l < r then
      match fuel with
      | 0 => .error .outOfFuel
      | fuel + 1 =>
        let m := ((l + r) % U64) >>> 1
        match read table ((m * kRecordSize) % U64) with
        | .error e => .error e
        | .ok v =>
          if target < v then primary_loop N table target fuel l m
          else if target = v then .ok m
          else primary_loop N table target fuel ((m + 1) % U64) r
    else .ok ((N + 1) % U64)

/-- The function `primary_binary_search(table, target)` over `N` records. -/
def primary_binary_search (N fuel : Nat) (table : List Nat) (target : Nat) :
    Except Err Nat :=
  primary_loop N table target fuel 0 N

/-- The loop of `secondary_binary_search`, entered with the bounds `l` and
`r`. -/
def secondary_loop (N : Nat) (index table : List Nat) (target : Nat) :
    Nat → Nat → Nat → Except Err Nat
  | fuel, l, r =>
    if l < r then
      match fuel with
      | 0 => .error .outOfFuel
      | fuel + 1 =>
        let m := ((l + r) % U64) >>> 1
        match read index m with
        | .error e => .error e
        | .ok p =>
          match read table (((p * kRecordSize) % U64 + 1) % U64) with
          | .error e => .error e
          | .ok v =>
            if target < v then secondary_loop N index table target fuel l m
            else if target = v then .ok m
            else secondary_loop N index table target fuel ((m + 1) % U64) r
    else .ok ((N + 1) % U64)

/-- The function `secondary_binary_search(index, table, target)` over `N`
records. -/
def secondary_binary_search (N fuel : Nat) (index table : List Nat) (target : Nat) :
    Except Err Nat :=
  secondary_loop N index table target fuel 0 N

/-- The loop shared by the two searches: `key_at m` is the read of the key
that the loop compares with `target` at the position `m`. -/
def search_loop (N : Nat) (key_at : Nat → Except Err Nat) (target : Nat) :
    Nat → Nat → Nat → Except Err Nat
  | fuel, l, r =>
    if l < r then
      match fuel with
      | 0 => .error .outOfFuel
      | fuel + 1 =>
        let m := ((l + r) % U64) >>> 1
        match key_at m with
        | .error e => .error e
        | .ok v =>
          if target < v then search_loop N key_at target fuel l m
          else if target = v then .ok m
          else search_loop N key_at target fuel ((m + 1) % U64) r
    else .ok ((N + 1) % U64)

/-- What one execution of the body of a search loop does: it returns `m`,
goes on with new bounds, or fails on a read. -/
inductive Step where
  | ret (m : Nat)
  | next (l r : Nat)
  | fault (e : Err)
  deriving DecidableEq, Repr

/-- One execution of the body of the search loop, entered with the bounds `l`
and `r`. -/
def search_body (key_at : Nat → Except Err Nat) (target l r : Nat) : Step :=
  let m := ((l + r) % U64) >>> 1
  match key_at m with
  | .error e => .fault e
  | .ok v =>
    if target < v then .next l m
    else if target = v then .ret m
    else .next ((m + 1) % U64) r

/-- The bounds `(l, r)` with which the loop, entered with `l` and `r`, tests
its condition after `n` executions of its body; `none` when the loop ends
before. -/
def bounds_after (key_at : Nat → Except Err Nat) (target : Nat) :
    Nat → Nat → Nat → Option (Nat × Nat)
  | 0, l, r => some (l, r)
  | n + 1, l, r =>
    if l < r then
      match search_body key_at target l r with
      | .next l' r' => bounds_after key_at target n l' r'
      | _ => none
    else none

/-- The key read of `primary_binary_search` at the position `m`. -/
def primary_key_at (table : List Nat) (m : Nat) : Except Err Nat :=
  read table ((m * kRecordSize) % U64)

/-- The key read of `secondary_binary_search` at the position `m`. -/
def secondary_key_at (index table : List Nat) (m : Nat) : Except Err Nat :=
  match read index m with
  | .error e => .error e
  | .ok p => read table (((p * kRecordSize) % U64 + 1) % U64)

/-! ## Building the data set in `main` -/

/-- The vector `secondary_keys` after the loop of `push_back(i)`. -/
def iota_keys (N : Nat) : Except Err (List Nat) :=
  forLoop (fun i v => .ok (v ++ [i])) N []

/-- The loop "populate table": record `i` gets primary key `i` and secondary
key `secondary_keys[i]`. -/
def populate_table (N : Nat) (secondary_keys table0 : List Nat) : Except Err (List Nat) :=
  forLoop (fun i table => do
    let table ← write table ((i * kRecordSize) % U64) i
    let k ← read secondary_keys i
    write table (((i * kRecordSize) % U64 + 1) % U64) k) N table0

/-- The loop "build secondary index permutation". -/
def build_secondary_index (N : Nat) (secondary_keys index0 : List Nat) :
    Except Err (List Nat) :=
  forLoop (fun i index => do
    let k ← read secondary_keys i
    write index k i) N index0

/-- The secondary-key column of a table of `N` records: the words
`table[i * kRecordSize + 1]` for `i` in `[0, N)`; `none` stands for a word
outside the table. -/
def secondary_column (N : Nat) (table : List Nat) : List (Option Nat) :=
  (List.range N).map fun i => table[i * kRecordSize + 1]?

/-- The arrays that `main` holds once the data set is built. -/
structure Dataset where
  secondary_keys : List Nat
  table : List Nat
  secondary_index : List Nat
  deriving DecidableEq, Repr

/-- The data set part of `main`: `shuffle` stands for `std::random_shuffle`,
`table0` and `index0` are the contents of the two fresh arrays. -/
def build_dataset (shuffle : List Nat → List Nat) (N : Nat) (table0 index0 : List Nat) :
    Except Err Dataset := do
  let v ← iota_keys N
  let secondary_keys := shuffle v
  let table ← populate_table N secondary_keys table0
  let secondary_index ← build_secondary_index N secondary_keys index0
  pure { secondary_keys := secondary_keys, table := table, secondary_index := secondary_index }

/-! ## References to records

The program stores the address of a record, `(uint64_t)(table + i * kRecordSize)`,
in the trees and tries. `base` is the address of `table[0]`; a `uint64_t`
occupies 8 bytes. -/

/-- The address `(uint64_t)(table + j)` of the word `table[j]`. -/
def addr_of (base j : Nat) : Nat := (base + 8 * j) % U64

/-- The read `*(uint64_t*)a` of the word of the table at the address `a`. -/
def load64 (base : Nat) (table : List Nat) (a : Nat) : Except Err Nat :=
  if base ≤ a ∧ (a - base) % 8 = 0 then read table ((a - base) / 8)
  else .error .outOfBounds

/-! ## The key codec of the trie -/

/-- The builtin `__builtin_bswap64`: the bytes of a 64-bit value in reverse
order. -/
def bswap64 (x : Nat) : Nat :=
  ((x >>> 56) % 256) + (((x >>> 48) % 256) <<< 8) + (((x >>> 40) % 256) <<< 16)
    + (((x >>> 32) % 256) <<< 24) + (((x >>> 24) % 256) <<< 32)
    + (((x >>> 16) % 256) <<< 40) + (((x >>> 8) % 256) <<< 48) + ((x % 256) <<< 56)

/-- Modelled from the spec: the class `Key` of the trie (its header is not
part of the sources), "the byte representation required by order-preserving
structures": the bytes of the key, first byte first; the key length is the
length of the list. -/
abbrev Key := List Nat

/-- The bytes that the store `reinterpret_cast<uint64_t *>(&key[0])[0] = v`
leaves in `key[0..7]`, lowest address first, on the little-endian host the
program is written for. -/
def store64 (v : Nat) : Key :=
  (List.range 8).map fun j => (v >>> (8 * j)) % 256

/-- The function `loadKey(tid, key)`: the key it leaves in `key`. -/
def loadKey (tid : Nat) : Key := store64 (bswap64 tid)

/-- The function `loadKeyPri(tid, key)`; `tid` is the address of a record. -/
def loadKeyPri (base : Nat) (table : List Nat) (tid : Nat) : Except Err Key := do
  let v ← load64 base table tid
  pure (store64 (bswap64 v))

/-- The function `loadKeySec(tid, key)`; `tid` is the address of a record. -/
def loadKeySec (base : Nat) (table : List Nat) (tid : Nat) : Except Err Key := do
  let v ← load64 base table ((tid + 8) % U64)
  pure (store64 (bswap64 v))

/-- Modelled from the spec: the order of the trie, which "compares keys
byte-by-byte in lexicographic order" (the trie is not part of the sources);
`keyLess a b` is `a <lex b`, byte 0 first. -/
def keyLess : Key → Key → Bool
  | [], [] => false
  | [], _ :: _ => true
  | _ :: _, [] => false
  | a :: as, b :: bs => if a < b then true else if b < a then false else keyLess as bs

/-- The number that a list of bytes spells, most significant byte first. -/
def beValue : List Nat → Nat
  | [] => 0
  | b :: bs => b * 256 ^ bs.length + beValue bs

/-! ## The external index structures -/

/-- Modelled from the spec: the type `stx::btree_map<uint64_t, uint64_t>`
(not part of the sources), "an ordered-map structure supporting
`insert(key, value)` and `find(key) -> value|end`": the entries in the order
of their insertion. -/
abbrev BTree := List (Nat × Nat)

/-- Modelled from the spec: `find(key) -> value|end`; `none` is `end()`. -/
def BTree.find (t : BTree) (key : Nat) : Option Nat :=
  (List.find? (fun e => e.1 == key) t).map Prod.snd

/-- Modelled from the spec: `insert(key, value)`; a key that is present keeps
its value. -/
def BTree.insert (t : BTree) (key value : Nat) : BTree :=
  match BTree.find t key with
  | some _ => t
  | none => t ++ [(key, value)]

/-- Modelled from the spec: the type `ART_unsynchronized::Tree` (not part of
the sources), "a byte-keyed trie supporting `insert(encoded_key, value)` and
`lookup(encoded_key) -> value|null`": the entries in the order of their
insertion. -/
abbrev ARTIndex := List (Key × Nat)

/-- Modelled from the spec: `lookup(encoded_key) -> value|null`; the null
reference is `0`. -/
def ARTIndex.lookup (t : ARTIndex) (key : Key) : Nat :=
  match List.find? (fun e => e.1 == key) t with
  | some e => e.2
  | none => 0

/-- Modelled from the spec: `insert(encoded_key, value)`. -/
def ARTIndex.insert (t : ARTIndex) (key : Key) (tid : Nat) : ARTIndex :=
  t ++ [(key, tid)]

/-! ## Building the tree and trie indexes in `main` -/

/-- The loop that fills `btree_pri`. -/
def build_btree_pri (base N : Nat) : Except Err BTree :=
  forLoop (fun i bt =>
    .ok (BTree.insert bt i (addr_of base ((i * kRecordSize) % U64)))) N []

/-- The loop that fills `btree_sec`. -/
def build_btree_sec (base N : Nat) (secondary_keys : List Nat) : Except Err BTree :=
  forLoop (fun i bt => do
    let k ← read secondary_keys i
    pure (BTree.insert bt k (addr_of base ((i * kRecordSize) % U64)))) N []

/-- The loop that fills `art_pri`. -/
def build_art_pri (base N : Nat) : Except Err ARTIndex :=
  forLoop (fun i art =>
    .ok (ARTIndex.insert art (loadKey i) (addr_of base ((i * kRecordSize) % U64)))) N []

/-- The loop that fills `art_sec`. -/
def build_art_sec (base N : Nat) (secondary_keys : List Nat) : Except Err ARTIndex :=
  forLoop (fun i art => do
    let k ← read secondary_keys i
    pure (ARTIndex.insert art (loadKey k) (addr_of base ((i * kRecordSize) % U64)))) N []

/-! ## The measurement loops of `main`

Each body takes the index `i` of the lookup and the running `sum`, and gives
the new `sum`. -/

/-- Body of the loop "binary search, primary". -/
def array_pri_step (N fuel : Nat) (table targets : List Nat) (i sum : Nat) :
    Except Err Nat := do
  let t ← read targets i
  let search ← primary_binary_search N fuel table t
  if t = search then pure ((sum + search) % U64) else pure sum

/-- Body of the loop "binary search, secondary". -/
def array_sec_step (N fuel : Nat) (index table targets : List Nat) (i sum : Nat) :
    Except Err Nat := do
  let t ← read targets i
  let search ← secondary_binary_search N fuel index table t
  if t = search then pure ((sum + search) % U64) else pure sum

/-- Body of the loop "B+tree, primary". -/
def btree_pri_step (base : Nat) (table : List Nat) (bt : BTree) (targets : List Nat)
    (i sum : Nat) : Except Err Nat := do
  let t ← read targets i
  match BTree.find bt t with
  | none => pure sum
  | some second => do
    let v ← load64 base table second
    pure ((sum + v) % U64)

/-- Body of the loop "B+tree, secondary". -/
def btree_sec_step (base : Nat) (table : List Nat) (bt : BTree) (targets : List Nat)
    (i sum : Nat) : Except Err Nat := do
  let t ← read targets i
  match BTree.find bt t with
  | none => pure sum
  | some second => do
    let v ← load64 base table ((second + 8) % U64)
    pure ((sum + v) % U64)

/-- Body of the loop "ART, primary". -/
def art_pri_step (base : Nat) (table : List Nat) (art : ARTIndex) (targets : List Nat)
    (i sum : Nat) : Except Err Nat := do
  let t ← read targets i
  let val_ptr := ARTIndex.lookup art (loadKey t)
  if val_ptr ≠ 0 then do
    let v ← load64 base table val_ptr
    pure ((sum + v) % U64)
  else pure sum

/-- Body of the loop "ART, secondary". -/
def art_sec_step (base : Nat) (table : List Nat) (art : ARTIndex) (targets : List Nat)
    (i sum : Nat) : Except Err Nat := do
  let t ← read targets i
  let val_ptr := ARTIndex.lookup art (loadKey t)
  if val_ptr ≠ 0 then do
    let v ← load64 base table ((val_ptr + 8) % U64)
    pure ((sum + v) % U64)
  else pure sum

/-- The sum of the first `n` targets in 64-bit wrapping arithmetic. -/
def wrapping_sum (targets : List Nat) : Nat → Nat
  | 0 => 0
  | n + 1 => (wrapping_sum targets n + targets.getD n 0) % U64

/-- The six sums that `main` prints, in the order in which it prints them. -/
structure Checksums where
  array_pri : Nat
  array_sec : Nat
  btree_pri : Nat
  btree_sec : Nat
  art_pri : Nat
  art_sec : Nat
  deriving DecidableEq, Repr

/-- The index building and measurement parts of `main` over a data set `d`,
for the `M` lookup targets `targets`. -/
def measure_all (base N M fuel : Nat) (d : Dataset) (targets : List Nat) :
    Except Err Checksums := do
  let btree_pri ← build_btree_pri base N
  let btree_sec ← build_btree_sec base N d.secondary_keys
  let art_pri ← build_art_pri base N
  let art_sec ← build_art_sec base N d.secondary_keys
  let s1 ← forLoop (array_pri_step N fuel d.table targets) M 0
  let s2 ← forLoop (array_sec_step N fuel d.secondary_index d.table targets) M 0
  let s3 ← forLoop (btree_pri_step base d.table btree_pri targets) M 0
  let s4 ← forLoop (btree_sec_step base d.table btree_sec targets) M 0
  let s5 ← forLoop (art_pri_step base d.table art_pri targets) M 0
  let s6 ← forLoop (art_sec_step base d.table art_sec targets) M 0
  pure { array_pri := s1, array_sec := s2, btree_pri := s3, btree_sec := s4,
         art_pri := s5, art_sec := s6 }

/-- The whole of `main` up to its report: the six sums. -/
def main_checksums (shuffle : List Nat → List Nat) (base N M fuel : Nat)
    (table0 index0 targets : List Nat) : Except Err Checksums := do
  let d ← build_dataset shuffle N table0 index0
  measure_all base N M fuel d targets

/-! ## Memory and loops: basic facts -/

theorem read_of_getElem? {mem : List Nat} {i v : Nat} (h : mem[i]? = some v) :
    read mem i = .ok v := by
  simp [read, h]

theorem read_ok_iff {mem : List Nat} {i v : Nat} :
    read mem i = .ok v ↔ mem[i]? = some v := by
  unfold read
  cases h : mem[i]? <;> simp

theorem read_lt (mem : List Nat) (i : Nat) (h : i < mem.length) :
    ∃ v, read mem i = .ok v ∧ mem[i]? = some v := by
  refine ⟨mem[i], ?_, ?_⟩
  · exact read_of_getElem? (List.getElem?_eq_getElem h)
  · exact List.getElem?_eq_getElem h

theorem write_lt {mem : List Nat} {i : Nat} (v : Nat) (h : i < mem.length) :
    write mem i v = .ok (mem.set i v) := by
  simp [write, h]

/-- A counted loop whose body keeps an invariant runs to its end and
establishes the invariant at `n`. -/
theorem forLoop_inv {σ : Type} (body : Nat → σ → Except Err σ) (P : Nat → σ → Prop)
    (n : Nat) (s0 : σ) (h0 : P 0 s0)
    (hstep : ∀ i s, i < n → P i s → ∃ s', body i s = .ok s' ∧ P (i + 1) s') :
    ∃ s, forLoop body n s0 = .ok s ∧ P n s := by
  induction n with
  | zero => exact ⟨s0, rfl, h0⟩
  | succ n ih =>
    obtain ⟨s, hs, hP⟩ := ih (fun i s hi hp => hstep i s (Nat.lt_succ_of_lt hi) hp)
    obtain ⟨s', hs', hP'⟩ := hstep n s (Nat.lt_succ_self n) hP
    refine ⟨s', ?_, hP'⟩
    simp only [forLoop, hs]
    exact hs'

/-- Two counted loops whose bodies agree on every state run alike. -/
theorem forLoop_congr {σ : Type} (b1 b2 : Nat → σ → Except Err σ) (n : Nat) (s0 : σ)
    (h : ∀ i s, i < n → b1 i s = b2 i s) : forLoop b1 n s0 = forLoop b2 n s0 := by
  induction n with
  | zero => rfl
  | succ n ih =>
    simp only [forLoop]
    rw [ih (fun i s hi => h i s (Nat.lt_succ_of_lt hi))]
    cases hq : forLoop b2 n s0 with
    | error e => rfl
    | ok s => exact h n s (Nat.lt_succ_self n)

/-! ## The search loop -/

theorem primary_loop_eq (N : Nat) (table : List Nat) (target : Nat) (fuel l r : Nat) :
    primary_loop N table target fuel l r
      = search_loop N (primary_key_at table) target fuel l r := by
  induction fuel generalizing l r with
  | zero => unfold primary_loop search_loop; rfl
  | succ f ih =>
    unfold primary_loop search_loop
    simp only [primary_key_at, ih]

theorem secondary_loop_eq (N : Nat) (index table : List Nat) (target : Nat) (fuel l r : Nat) :
    secondary_loop N index table target fuel l r
      = search_loop N (secondary_key_at index table) target fuel l r := by
  induction fuel generalizing l r with
  | zero => unfold secondary_loop search_loop; rfl
  | succ f ih =>
    unfold secondary_loop search_loop
    simp only [secondary_key_at, ih]
    split
    · cases read index (((l + r) % U64) >>> 1) <;> rfl
    · rfl

/-- The midpoint of the loop, without overflow. -/
theorem mid_eq {N l r : Nat} (hN : N + N < U64) (hl : l ≤ r) (hr : r ≤ N) :
    ((l + r) % U64) >>> 1 = (l + r) / 2 := by
  have : l + r < U64 := by omega
  rw [Nat.mod_eq_of_lt this, Nat.shiftRight_eq_div_pow]

/-- Soundness of the loop for any content: it ends within `fuel` body
executions once `r - l < 2 ^ fuel`, and then gives the sentinel or a position
of `[l, r)` that holds the target. -/
theorem search_loop_sound (N : Nat) (key_at : Nat → Except Err Nat) (col : Nat → Nat)
    (target : Nat) (hN : N + N < U64) (hcol : ∀ m, m < N → key_at m = .ok (col m)) :
    ∀ fuel l r, l ≤ r → r ≤ N → r - l < 2 ^ fuel →
      ∃ v, search_loop N key_at target fuel l r = .ok v ∧
        (v = N + 1 ∨ (l ≤ v ∧ v < r ∧ col v = target)) := by
  have hU : U64 = 2 ^ 64 := rfl
  intro fuel
  induction fuel with
  | zero =>
    intro l r hl hr hw
    have : ¬ l < r := by simp at hw; omega
    refine ⟨N + 1, ?_, Or.inl rfl⟩
    unfold search_loop
    rw [if_neg this, Nat.mod_eq_of_lt (by omega)]
  | succ f ih =>
    intro l r hl hr hw
    unfold search_loop
    by_cases hlt : l < r
    · rw [if_pos hlt]
      simp only
      rw [mid_eq hN hl hr]
      have hm1 : l ≤ (l + r) / 2 := by omega
      have hm2 : (l + r) / 2 < r := by omega
      rw [hcol _ (by omega)]
      simp only
      rw [pow_succ] at hw
      split
      · obtain ⟨v, hv, hres⟩ := ih l ((l + r) / 2) hm1 (by omega) (by omega)
        refine ⟨v, hv, ?_⟩
        rcases hres with h | ⟨h1, h2, h3⟩
        · exact Or.inl h
        · exact Or.inr ⟨h1, by omega, h3⟩
      · split
        · rename_i heq
          exact ⟨_, rfl, Or.inr ⟨hm1, hm2, heq.symm⟩⟩
        · rw [Nat.mod_eq_of_lt (by omega)]
          obtain ⟨v, hv, hres⟩ := ih ((l + r) / 2 + 1) r (by omega) hr (by omega)
          refine ⟨v, hv, ?_⟩
          rcases hres with h | ⟨h1, h2, h3⟩
          · exact Or.inl h
          · exact Or.inr ⟨by omega, h2, h3⟩
    · rw [if_neg hlt, Nat.mod_eq_of_lt (by omega)]
      exact ⟨N + 1, rfl, Or.inl rfl⟩

/-- On a non-decreasing key column the loop finds a target that occurs in
`[l, r)`. -/
theorem search_loop_hit (N : Nat) (key_at : Nat → Except Err Nat) (col : Nat → Nat)
    (target : Nat) (hN : N + N < U64) (hcol : ∀ m, m < N → key_at m = .ok (col m))
    (hmono : ∀ i j, i ≤ j → j < N → col i ≤ col j) :
    ∀ fuel l r, l ≤ r → r ≤ N → r - l < 2 ^ fuel →
      (∃ k, l ≤ k ∧ k < r ∧ col k = target) →
      ∃ v, search_loop N key_at target fuel l r = .ok v ∧
        l ≤ v ∧ v < r ∧ col v = target := by
  intro fuel
  induction fuel with
  | zero =>
    intro l r hl hr hw ⟨k, hk1, hk2, _⟩
    simp at hw
    omega
  | succ f ih =>
    intro l r hl hr hw ⟨k, hk1, hk2, hk⟩
    unfold search_loop
    have hlt : l < r := by omega
    rw [if_pos hlt]
    simp only
    rw [mid_eq hN hl hr]
    have hm1 : l ≤ (l + r) / 2 := by omega
    have hm2 : (l + r) / 2 < r := by omega
    rw [hcol _ (by omega)]
    simp only
    rw [pow_succ] at hw
    split
    · rename_i hlt'
      have hkm : k < (l + r) / 2 := by
        by_contra hge
        have := hmono ((l + r) / 2) k (by omega) (by omega)
        omega
      obtain ⟨v, hv, h1, h2, h3⟩ :=
        ih l ((l + r) / 2) hm1 (by omega) (by omega) ⟨k, hk1, hkm, hk⟩
      exact ⟨v, hv, h1, by omega, h3⟩
    · split
      · rename_i heq
        exact ⟨_, rfl, hm1, hm2, heq.symm⟩
      · rename_i hnlt hne
        have hkm : (l + r) / 2 < k := by
          by_contra hge
          have := hmono k ((l + r) / 2) (by omega) (by omega)
          omega
        rw [Nat.mod_eq_of_lt (by omega)]
        obtain ⟨v, hv, h1, h2, h3⟩ :=
          ih ((l + r) / 2 + 1) r (by omega) hr (by omega) ⟨k, by omega, hk2, hk⟩
        exact ⟨v, hv, by omega, h2, h3⟩

/-! ## The data set that `main` builds -/

theorem U64_eq : U64 = 18446744073709551616 := by
  norm_num [U64]

/-- What the program uses of a vector that holds `0, ..., N - 1` in some
order. -/
theorem perm_range_facts {N : Nat} {sk : List Nat} (h : sk.Perm (List.range N)) :
    sk.length = N ∧ (∀ i k : Nat, sk[i]? = some k → k < N) ∧
      (∀ i j k : Nat, sk[i]? = some k → sk[j]? = some k → i = j) ∧
      (∀ k, k < N → ∃ i, i < N ∧ sk[i]? = some k) := by
  have hlen : sk.length = N := by simpa using h.length_eq
  have hnd : sk.Nodup := h.nodup_iff.mpr (List.nodup_range N)
  refine ⟨hlen, ?_, ?_, ?_⟩
  · intro i k hk
    have : k ∈ sk := List.mem_iff_getElem?.mpr ⟨i, hk⟩
    exact List.mem_range.mp (h.mem_iff.mp this)
  · intro i j k hi hj
    obtain ⟨hi', hik⟩ := List.getElem?_eq_some.mp hi
    obtain ⟨hj', hjk⟩ := List.getElem?_eq_some.mp hj
    exact (hnd.getElem_inj_iff).mp (hik.trans hjk.symm)
  · intro k hk
    have : k ∈ sk := h.mem_iff.mpr (List.mem_range.mpr hk)
    obtain ⟨i, hi⟩ := List.mem_iff_getElem?.mp this
    obtain ⟨hi', _⟩ := List.getElem?_eq_some.mp hi
    exact ⟨i, by omega, hi⟩

/-- The vector before the shuffle is `0, ..., N - 1`. -/
theorem iota_keys_eq (N : Nat) : iota_keys N = .ok (List.range N) := by
  unfold iota_keys
  induction N with
  | zero => rfl
  | succ n ih =>
    simp only [forLoop, ih, List.range_succ]
    rfl

/-- The table after "populate table": every record holds its primary and its
secondary key, and the table keeps its size. -/
theorem populate_table_spec (N : Nat) (sk table0 : List Nat)
    (hsz : kRecordSize * N < U64) (hlen : table0.length = kRecordSize * N)
    (hsk : sk.length = N) :
    ∃ table, populate_table N sk table0 = .ok table ∧
      table.length = kRecordSize * N ∧
      ∀ i, i < N → table[i * kRecordSize]? = some i ∧
        table[i * kRecordSize + 1]? = sk[i]? := by
  rw [U64_eq] at hsz
  simp only [kRecordSize] at hsz hlen ⊢
  have key := forLoop_inv
    (fun i table => do
      let table ← write table ((i * kRecordSize) % U64) i
      let k ← read sk i
      write table (((i * kRecordSize) % U64 + 1) % U64) k)
    (fun n (t : List Nat) => t.length = 8 * N ∧
      ∀ i, i < n → t[i * 8]? = some i ∧ t[i * 8 + 1]? = sk[i]?)
    N table0 ⟨hlen, fun i hi => absurd hi (Nat.not_lt_zero i)⟩ ?_
  · obtain ⟨t, ht, hl, hP⟩ := key
    exact ⟨t, ht, hl, hP⟩
  · intro n t hn ⟨hl, hP⟩
    obtain ⟨k, hk, hk'⟩ := read_lt sk n (by omega)
    have e1 : (n * kRecordSize) % U64 = n * 8 := by
      rw [U64_eq]; simp only [kRecordSize]; omega
    have e2 : (n * 8 + 1) % U64 = n * 8 + 1 := by
      rw [U64_eq]; omega
    refine ⟨(t.set (n * 8) n).set (n * 8 + 1) k, ?_, ?_, ?_⟩
    · simp only [e1, e2]
      rw [write_lt n (by omega)]
      simp only [bind, Except.bind, hk]
      rw [write_lt k (by simp; omega)]
    · simp [hl]
    · intro i hi
      by_cases hin : i = n
      · subst hin
        constructor
        · rw [List.getElem?_set_ne (by omega), List.getElem?_set_self (by omega)]
        · rw [List.getElem?_set_self (by simp; omega), hk']
      · have hi' : i < n := by omega
        obtain ⟨h1, h2⟩ := hP i hi'
        constructor
        · rw [List.getElem?_set_ne (by omega), List.getElem?_set_ne (by omega), h1]
        · rw [List.getElem?_set_ne (by omega), List.getElem?_set_ne (by omega), h2]

/-- The array `secondary_index` after its loop: the slot of every secondary
key holds the offset of the record with that key. -/
theorem build_secondary_index_spec (N : Nat) (sk index0 : List Nat)
    (hperm : sk.Perm (List.range N)) (hlen : index0.length = N) :
    ∃ index, build_secondary_index N sk index0 = .ok index ∧
      index.length = N ∧ ∀ i k : Nat, sk[i]? = some k → index[k]? = some i := by
  obtain ⟨hsk, hlt, hinj, _⟩ := perm_range_facts hperm
  have key := forLoop_inv
    (fun i index => do
      let k ← read sk i
      write index k i)
    (fun n (t : List Nat) => t.length = N ∧
      ∀ i k : Nat, i < n → sk[i]? = some k → t[k]? = some i)
    N index0 ⟨hlen, fun i _ hi => absurd hi (Nat.not_lt_zero i)⟩ ?_
  · obtain ⟨t, ht, hl, hP⟩ := key
    refine ⟨t, ht, hl, fun i k hk => hP i k ?_ hk⟩
    obtain ⟨hi', _⟩ := List.getElem?_eq_some.mp hk
    omega
  · intro n t hn ⟨hl, hP⟩
    obtain ⟨k, hk, hk'⟩ := read_lt sk n (by omega)
    have hkN : k < N := hlt n k hk'
    refine ⟨t.set k n, ?_, ?_, ?_⟩
    · simp only [bind, Except.bind, hk]
      rw [write_lt n (by omega)]
    · simp [hl]
    · intro i k' hi hik
      by_cases hin : i = n
      · subst hin
        have : k' = k := by rw [hk'] at hik; exact (Option.some.inj hik).symm
        subst this
        rw [List.getElem?_set_self (by omega)]
      · have hne : k ≠ k' := by
          intro hkk
          subst hkk
          exact hin (hinj i n k hik hk')
        rw [List.getElem?_set_ne hne]
        exact hP i k' (by omega) hik

/-! ## The searches on the tables of `main` -/

theorem lt_two_pow_fuel {N fuel : Nat} (hN : N < U64) (hfuel : 64 ≤ fuel) : N < 2 ^ fuel :=
  Nat.lt_of_lt_of_le hN (Nat.pow_le_pow_right (by decide) hfuel)

/-- The key read of the primary search on a table of `N` records. -/
theorem primary_key_at_eq (N : Nat) (table : List Nat) (hsz : kRecordSize * N < U64)
    (hlen : table.length = kRecordSize * N) (m : Nat) (hm : m < N) :
    primary_key_at table m = .ok (table.getD (m * kRecordSize) 0) ∧
      table[m * kRecordSize]? = some (table.getD (m * kRecordSize) 0) := by
  rw [U64_eq] at hsz
  simp only [kRecordSize] at hsz hlen ⊢
  have e1 : (m * kRecordSize) % U64 = m * 8 := by
    rw [U64_eq]; simp only [kRecordSize]; omega
  have hlt : m * 8 < table.length := by omega
  have h2 : table[m * 8]? = some (table.getD (m * 8) 0) := by
    simp [List.getD, List.getElem?_eq_getElem hlt]
  exact ⟨by rw [primary_key_at, e1]; exact read_of_getElem? h2, h2⟩

/-- The key read of the secondary search on the arrays that `main` builds: at
the position `m` it is `m`. -/
theorem secondary_key_at_eq (N : Nat) (sk table index : List Nat)
    (hsz : kRecordSize * N < U64) (hperm : sk.Perm (List.range N))
    (htab : ∀ i, i < N → table[i * kRecordSize]? = some i ∧
      table[i * kRecordSize + 1]? = sk[i]?)
    (hidx : ∀ i k : Nat, sk[i]? = some k → index[k]? = some i) (m : Nat) (hm : m < N) :
    secondary_key_at index table m = .ok m := by
  obtain ⟨_, _, _, hsurj⟩ := perm_range_facts hperm
  obtain ⟨i, hi, hik⟩ := hsurj m hm
  rw [U64_eq] at hsz
  simp only [kRecordSize] at hsz htab
  have e1 : ((i * kRecordSize) % U64 + 1) % U64 = i * 8 + 1 := by
    rw [U64_eq]; simp only [kRecordSize]; omega
  unfold secondary_key_at
  rw [read_of_getElem? (hidx i m hik)]
  simp only [e1]
  exact read_of_getElem? ((htab i hi).2.trans hik)

/-! ## Claims -/

/-- C1: on the table that `main` populates (record `i` holds primary key `i`),
for every key `k` below `N` the primary search returns `k`, which is not the
sentinel and is the offset of the record with primary key `k`. The size
condition says that the table of `kRecordSize * N` words can be allocated. -/
theorem primary_search_finds_record (N : Nat) (sk table0 : List Nat)
    (hsz : kRecordSize * N < U64) (hlen : table0.length = kRecordSize * N)
    (hsk : sk.length = N) :
    ∃ table, populate_table N sk table0 = .ok table ∧
      ∀ k fuel, k < N → 64 ≤ fuel →
        primary_binary_search N fuel table k = .ok k ∧ k ≠ (N + 1) % U64 ∧
          table[k * kRecordSize]? = some k := by
  obtain ⟨table, hbuild, hl, htab⟩ := populate_table_spec N sk table0 hsz hlen hsk
  refine ⟨table, hbuild, ?_⟩
  intro k fuel hk hfuel
  have hsz' := hsz
  rw [U64_eq] at hsz'
  simp only [kRecordSize] at hsz'
  have hN2 : N + N < U64 := by rw [U64_eq]; omega
  have hcol : ∀ m, m < N → primary_key_at table m = .ok (id m) := by
    intro m hm
    obtain ⟨h1, h2⟩ := primary_key_at_eq N table hsz hl m hm
    rw [h1]
    rw [(htab m hm).1] at h2
    rw [← Option.some.inj h2]
    rfl
  obtain ⟨v, hv, _, _, hvk⟩ := search_loop_hit N (primary_key_at table) id k hN2 hcol
    (fun i j hij _ => hij) fuel 0 N (Nat.zero_le N) (Nat.le_refl N)
    (by simpa using lt_two_pow_fuel (by rw [U64_eq]; omega) hfuel) ⟨k, Nat.zero_le k, hk, rfl⟩
  have hvk' : v = k := hvk
  subst hvk'
  refine ⟨?_, ?_, (htab v hk).1⟩
  · rw [primary_binary_search, primary_loop_eq]
    exact hv
  · rw [U64_eq]; omega

/-- Witness of C1 on a table of two records. -/
theorem primary_search_finds_record_witness :
    ∃ table, populate_table 2 [1, 0] (List.replicate 16 7) = .ok table ∧
      ∀ k fuel, k < 2 → 64 ≤ fuel →
        primary_binary_search 2 fuel table k = .ok k ∧ k ≠ (2 + 1) % U64 ∧
          table[k * kRecordSize]? = some k :=
  primary_search_finds_record 2 [1, 0] (List.replicate 16 7) (by decide) (by decide)
    (by decide)

/-- C5: on a table of `N` records with any content the primary search returns,
for any target, the sentinel `N + 1` (which is no offset of the table) or an
offset below `N` whose record holds the target as primary key; it returns the
sentinel when no record holds the target, and the loop entered with an empty
range `l = r` gives the sentinel at once. -/
theorem primary_search_sound (N : Nat) (table : List Nat) (target fuel : Nat)
    (hsz : kRecordSize * N < U64) (hlen : table.length = kRecordSize * N)
    (hfuel : 64 ≤ fuel) :
    ∃ v, primary_binary_search N fuel table target = .ok v ∧
      ((v = N + 1 ∧ ¬ v < N) ∨ (v < N ∧ table[v * kRecordSize]? = some target)) ∧
      ((∀ m, m < N → table[m * kRecordSize]? ≠ some target) → v = N + 1) ∧
      (∀ l f, primary_loop N table target f l l = .ok (N + 1)) := by
  have hsz' := hsz
  rw [U64_eq] at hsz'
  simp only [kRecordSize] at hsz'
  have hN2 : N + N < U64 := by rw [U64_eq]; omega
  obtain ⟨v, hv, hres⟩ := search_loop_sound N (primary_key_at table)
    (fun m => table.getD (m * kRecordSize) 0) target hN2
    (fun m hm => (primary_key_at_eq N table hsz hlen m hm).1)
    fuel 0 N (Nat.zero_le N) (Nat.le_refl N)
    (by simpa using lt_two_pow_fuel (by rw [U64_eq]; omega) hfuel)
  refine ⟨v, by rw [primary_binary_search, primary_loop_eq]; exact hv, ?_, ?_, ?_⟩
  · rcases hres with h | ⟨_, h2, h3⟩
    · exact Or.inl ⟨h, by omega⟩
    · refine Or.inr ⟨h2, ?_⟩
      rw [(primary_key_at_eq N table hsz hlen v h2).2, h3]
  · intro habs
    rcases hres with h | ⟨_, h2, h3⟩
    · exact h
    · exfalso
      apply habs v h2
      rw [(primary_key_at_eq N table hsz hlen v h2).2, h3]
  · intro l f
    unfold primary_loop
    rw [if_neg (Nat.lt_irrefl l), Nat.mod_eq_of_lt (by rw [U64_eq]; omega)]

/-- Witness of C5: a single-key table that does not hold the target. -/
theorem primary_search_sound_witness :
    ∃ v, primary_binary_search 1 64 [5, 0, 0, 0, 0, 0, 0, 0] 3 = .ok v ∧
      ((v = 1 + 1 ∧ ¬ v < 1) ∨
        (v < 1 ∧ [5, 0, 0, 0, 0, 0, 0, 0][v * kRecordSize]? = some 3)) ∧
      ((∀ m, m < 1 → [5, 0, 0, 0, 0, 0, 0, 0][m * kRecordSize]? ≠ some 3) → v = 1 + 1) ∧
      (∀ l f, primary_loop 1 [5, 0, 0, 0, 0, 0, 0, 0] 3 f l l = .ok (1 + 1)) :=
  primary_search_sound 1 [5, 0, 0, 0, 0, 0, 0, 0] 3 64 (by decide) (by decide) (by decide)

/-- C2, as the claim states it, fails: with `N = 4` and the secondary keys
`(2, 0, 3, 1)` record 1 holds the secondary key 0, and the secondary lookup of
the target 0 returns 0, not the table offset 1. -/
theorem secondary_search_returns_position_not_offset :
    ∃ d, build_dataset (fun _ => [2, 0, 3, 1]) 4 (List.replicate 32 0) (List.replicate 4 0)
        = .ok d ∧
      d.table[1 * kRecordSize + 1]? = some 0 ∧
      secondary_binary_search 4 64 d.secondary_index d.table 0 = .ok 0 ∧
      secondary_binary_search 4 64 d.secondary_index d.table 0 ≠ .ok 1 :=
  ⟨_, rfl, by decide, by decide, by decide⟩

/-- C2, amended: on the table and the index that `main` builds from a
permutation of `0, ..., N - 1`, the secondary lookup of the secondary key of
record `i` returns that key itself, the position in `secondary_index` whose
entry is the table offset `i`. -/
theorem secondary_search_finds_position (N : Nat) (sk table0 index0 : List Nat)
    (hsz : kRecordSize * N < U64) (hperm : sk.Perm (List.range N))
    (hlen : table0.length = kRecordSize * N) (hilen : index0.length = N) :
    ∃ table index, populate_table N sk table0 = .ok table ∧
      build_secondary_index N sk index0 = .ok index ∧
      ∀ i, i < N → ∃ key, sk[i]? = some key ∧ table[i * kRecordSize + 1]? = some key ∧
        index[key]? = some i ∧
        ∀ fuel, 64 ≤ fuel → secondary_binary_search N fuel index table key = .ok key := by
  obtain ⟨hsk, hlt, _, _⟩ := perm_range_facts hperm
  obtain ⟨table, hbuild, hl, htab⟩ := populate_table_spec N sk table0 hsz hlen hsk
  obtain ⟨index, hibuild, hil, hidx⟩ := build_secondary_index_spec N sk index0 hperm hilen
  refine ⟨table, index, hbuild, hibuild, ?_⟩
  intro i hi
  obtain ⟨key, _, hkey⟩ := read_lt sk i (by omega)
  refine ⟨key, hkey, (htab i hi).2.trans hkey, hidx i key hkey, ?_⟩
  intro fuel hfuel
  have hsz' := hsz
  rw [U64_eq] at hsz'
  simp only [kRecordSize] at hsz'
  have hN2 : N + N < U64 := by rw [U64_eq]; omega
  obtain ⟨v, hv, _, _, hvk⟩ := search_loop_hit N (secondary_key_at index table) id key hN2
    (fun m hm => secondary_key_at_eq N sk table index hsz hperm htab hidx m hm)
    (fun i j hij _ => hij) fuel 0 N (Nat.zero_le N) (Nat.le_refl N)
    (by simpa using lt_two_pow_fuel (by rw [U64_eq]; omega) hfuel)
    ⟨key, Nat.zero_le key, hlt i key hkey, rfl⟩
  have hvk' : v = key := hvk
  subst hvk'
  rw [secondary_binary_search, secondary_loop_eq]
  exact hv

/-- Witness of the amended C2: the scenario with `N = 4` and the secondary
keys `(2, 0, 3, 1)`. -/
theorem secondary_search_finds_position_witness :
    ∃ table index, populate_table 4 [2, 0, 3, 1] (List.replicate 32 0) = .ok table ∧
      build_secondary_index 4 [2, 0, 3, 1] (List.replicate 4 0) = .ok index ∧
      ∀ i, i < 4 → ∃ key, [2, 0, 3, 1][i]? = some key ∧
        table[i * kRecordSize + 1]? = some key ∧ index[key]? = some i ∧
        ∀ fuel, 64 ≤ fuel → secondary_binary_search 4 fuel index table key = .ok key :=
  secondary_search_finds_position 4 [2, 0, 3, 1] (List.replicate 32 0) (List.replicate 4 0)
    (by decide) (by decide) (by decide) (by decide)

/-- C6: the array `secondary_index` that `main` builds from a permutation of
`0, ..., N - 1` is its inverse: every slot `k` is the target of the write of
exactly one iteration `i` (the one with `secondary_keys[i] = k`),
`secondary_index[secondary_keys[i]] = i`, the record at `secondary_index[k]`
has the secondary key `k`, and the keys that the secondary search reads
through the index are strictly increasing in the position. -/
theorem secondary_index_is_inverse (N : Nat) (sk table0 index0 : List Nat)
    (hsz : kRecordSize * N < U64) (hperm : sk.Perm (List.range N))
    (hlen : table0.length = kRecordSize * N) (hilen : index0.length = N) :
    ∃ table index, populate_table N sk table0 = .ok table ∧
      build_secondary_index N sk index0 = .ok index ∧ index.length = N ∧
      (∀ k, k < N → ∃! i, i < N ∧ sk[i]? = some k) ∧
      (∀ i, i < N → ∃ k, sk[i]? = some k ∧ index[k]? = some i) ∧
      (∀ k, k < N → ∃ p, index[k]? = some p ∧ p < N ∧
        table[p * kRecordSize + 1]? = some k) ∧
      (∀ m1 m2, m1 < m2 → m2 < N → ∃ v1 v2,
        secondary_key_at index table m1 = .ok v1 ∧
        secondary_key_at index table m2 = .ok v2 ∧ v1 < v2) := by
  obtain ⟨hsk, hlt, hinj, hsurj⟩ := perm_range_facts hperm
  obtain ⟨table, hbuild, hl, htab⟩ := populate_table_spec N sk table0 hsz hlen hsk
  obtain ⟨index, hibuild, hil, hidx⟩ := build_secondary_index_spec N sk index0 hperm hilen
  refine ⟨table, index, hbuild, hibuild, hil, ?_, ?_, ?_, ?_⟩
  · intro k hk
    obtain ⟨i, hi, hik⟩ := hsurj k hk
    exact ⟨i, ⟨hi, hik⟩, fun j ⟨_, hjk⟩ => hinj j i k hjk hik⟩
  · intro i hi
    obtain ⟨k, _, hkey⟩ := read_lt sk i (by omega)
    exact ⟨k, hkey, hidx i k hkey⟩
  · intro k hk
    obtain ⟨i, hi, hik⟩ := hsurj k hk
    exact ⟨i, hidx i k hik, hi, (htab i hi).2.trans hik⟩
  · intro m1 m2 h12 h2
    refine ⟨m1, m2, ?_, ?_, h12⟩
    · exact secondary_key_at_eq N sk table index hsz hperm htab hidx m1 (by omega)
    · exact secondary_key_at_eq N sk table index hsz hperm htab hidx m2 h2

/-- Witness of C6 with `N = 4` and the secondary keys `(2, 0, 3, 1)`. -/
theorem secondary_index_is_inverse_witness :
    ∃ table index, populate_table 4 [2, 0, 3, 1] (List.replicate 32 9) = .ok table ∧
      build_secondary_index 4 [2, 0, 3, 1] (List.replicate 4 9) = .ok index ∧
      index.length = 4 ∧
      (∀ k, k < 4 → ∃! i, i < 4 ∧ [2, 0, 3, 1][i]? = some k) ∧
      (∀ i, i < 4 → ∃ k, [2, 0, 3, 1][i]? = some k ∧ index[k]? = some i) ∧
      (∀ k, k < 4 → ∃ p, index[k]? = some p ∧ p < 4 ∧
        table[p * kRecordSize + 1]? = some k) ∧
      (∀ m1 m2, m1 < m2 → m2 < 4 → ∃ v1 v2,
        secondary_key_at index table m1 = .ok v1 ∧
        secondary_key_at index table m2 = .ok v2 ∧ v1 < v2) :=
  secondary_index_is_inverse 4 [2, 0, 3, 1] (List.replicate 32 9) (List.replicate 4 9)
    (by decide) (by decide) (by decide) (by decide)

/-- C7: when the shuffle returns the vector `0, ..., N - 1` in some order, the
data set of `main` is built, the secondary-key column of its table is that
shuffled vector, in which every value below `N` occurs exactly once and no
other value occurs, and every record keeps its primary key: a write of a
secondary key leaves every primary key as it was. -/
theorem secondary_keys_bijection (shuffle : List Nat → List Nat) (N : Nat)
    (table0 index0 : List Nat) (hsz : kRecordSize * N < U64)
    (hshuffle : (shuffle (List.range N)).Perm (List.range N))
    (hlen : table0.length = kRecordSize * N) (hilen : index0.length = N) :
    ∃ d, build_dataset shuffle N table0 index0 = .ok d ∧
      secondary_column N d.table = d.secondary_keys.map some ∧
      d.secondary_keys.Perm (List.range N) ∧
      (secondary_column N d.table).length = N ∧
      (∀ v, v < N → (secondary_column N d.table).count (some v) = 1) ∧
      (∀ x, x ∈ secondary_column N d.table → ∃ v, v < N ∧ x = some v) ∧
      (∀ i, i < N → d.table[i * kRecordSize]? = some i) ∧
      (∀ (t t' : List Nat) (i j v : Nat), i < N → j < N →
        write t (((i * kRecordSize) % U64 + 1) % U64) v = .ok t' →
        t'[j * kRecordSize]? = t[j * kRecordSize]?) := by
  obtain ⟨hsk, hlt, hinj, hsurj⟩ := perm_range_facts hshuffle
  obtain ⟨table, hbuild, hl, htab⟩ :=
    populate_table_spec N (shuffle (List.range N)) table0 hsz hlen hsk
  obtain ⟨index, hibuild, hil, hidx⟩ :=
    build_secondary_index_spec N (shuffle (List.range N)) index0 hshuffle hilen
  have hcol : secondary_column N table = (shuffle (List.range N)).map some := by
    apply List.ext_getElem?
    intro i
    by_cases hi : i < N
    · simp only [secondary_column, List.getElem?_map, List.getElem?_range hi, Option.map_some']
      rw [(htab i hi).2]
      obtain ⟨k, _, hkey⟩ := read_lt (shuffle (List.range N)) i (by omega)
      rw [hkey]
      rfl
    · rw [List.getElem?_eq_none (by simp [secondary_column]; omega),
        List.getElem?_eq_none (by simp; omega)]
  refine ⟨⟨shuffle (List.range N), table, index⟩, ?_, hcol, hshuffle, ?_, ?_, ?_, ?_, ?_⟩
  · simp only [build_dataset, iota_keys_eq, bind, Except.bind, hbuild, hibuild]
    rfl
  · simp [secondary_column]
  · intro v hv
    show (secondary_column N table).count (some v) = 1
    rw [hcol]
    have hnd : ((shuffle (List.range N)).map some).Nodup :=
      (hshuffle.nodup_iff.mpr (List.nodup_range N)).map (Option.some_injective _)
    have hmem : some v ∈ (shuffle (List.range N)).map some :=
      List.mem_map_of_mem _ (hshuffle.mem_iff.mpr (List.mem_range.mpr hv))
    have h := List.count_eq_one_of_mem hnd hmem
    simp only [List.count] at h ⊢
    rw [← h]
    apply List.countP_congr
    intro y _
    simp
  · intro x hx
    have hx' : x ∈ (shuffle (List.range N)).map some := hcol ▸ hx
    obtain ⟨v, hv, rfl⟩ := List.mem_map.mp hx'
    exact ⟨v, List.mem_range.mp (hshuffle.mem_iff.mp hv), rfl⟩
  · intro i hi
    exact (htab i hi).1
  · intro t t' i j v hi hj hw
    have hsz' := hsz
    rw [U64_eq] at hsz'
    simp only [kRecordSize] at hsz' ⊢
    have e1 : ((i * kRecordSize) % U64 + 1) % U64 = i * 8 + 1 := by
      rw [U64_eq]; simp only [kRecordSize]; omega
    rw [e1] at hw
    unfold write at hw
    split at hw
    · cases hw
      rw [List.getElem?_set_ne (by omega)]
    · cases hw

/-- Witness of C7 with `N = 4` and a shuffle that gives `(2, 0, 3, 1)`. -/
theorem secondary_keys_bijection_witness :
    ∃ d, build_dataset (fun _ => [2, 0, 3, 1]) 4 (List.replicate 32 9) (List.replicate 4 9)
        = .ok d ∧
      secondary_column 4 d.table = d.secondary_keys.map some ∧
      d.secondary_keys.Perm (List.range 4) ∧
      (secondary_column 4 d.table).length = 4 ∧
      (∀ v, v < 4 → (secondary_column 4 d.table).count (some v) = 1) ∧
      (∀ x, x ∈ secondary_column 4 d.table → ∃ v, v < 4 ∧ x = some v) ∧
      (∀ i, i < 4 → d.table[i * kRecordSize]? = some i) ∧
      (∀ (t t' : List Nat) (i j v : Nat), i < 4 → j < 4 →
        write t (((i * kRecordSize) % U64 + 1) % U64) v = .ok t' →
        t'[j * kRecordSize]? = t[j * kRecordSize]?) :=
  secondary_keys_bijection (fun _ => [2, 0, 3, 1]) 4 (List.replicate 32 9)
    (List.replicate 4 9) (by decide) (by decide) (by decide) (by decide)

/-! ## The key codec -/

/-- The bytes of a number given by its eight base-256 digits. -/
theorem bytes_of_sum (b0 b1 b2 b3 b4 b5 b6 b7 : Nat) (h0 : b0 < 256) (h1 : b1 < 256)
    (h2 : b2 < 256) (h3 : b3 < 256) (h4 : b4 < 256) (h5 : b5 < 256) (h6 : b6 < 256)
    (h7 : b7 < 256) (S : Nat)
    (hS : S = b0 + b1 * 256 + b2 * 65536 + b3 * 16777216 + b4 * 4294967296
      + b5 * 1099511627776 + b6 * 281474976710656 + b7 * 72057594037927936) :
    S % 256 = b0 ∧ S / 256 % 256 = b1 ∧ S / 65536 % 256 = b2 ∧ S / 16777216 % 256 = b3 ∧
    S / 4294967296 % 256 = b4 ∧ S / 1099511627776 % 256 = b5 ∧
    S / 281474976710656 % 256 = b6 ∧ S / 72057594037927936 % 256 = b7 := by
  refine ⟨?_, ?_, ?_, ?_, ?_, ?_, ?_, ?_⟩ <;> omega

/-- The eight bytes of `loadKey k`, most significant byte of `k` first. -/
theorem loadKey_bytes (k : Nat) :
    loadKey k = [(k >>> 56) % 256, (k >>> 48) % 256, (k >>> 40) % 256, (k >>> 32) % 256,
      (k >>> 24) % 256, (k >>> 16) % 256, (k >>> 8) % 256, k % 256] := by
  have hb : ∀ x : Nat, x % 256 < 256 := fun x => Nat.mod_lt x (by decide)
  obtain ⟨e0, e1, e2, e3, e4, e5, e6, e7⟩ := bytes_of_sum
    ((k >>> 56) % 256) ((k >>> 48) % 256) ((k >>> 40) % 256) ((k >>> 32) % 256)
    ((k >>> 24) % 256) ((k >>> 16) % 256) ((k >>> 8) % 256) (k % 256)
    (hb _) (hb _) (hb _) (hb _) (hb _) (hb _) (hb _) (hb _) (bswap64 k)
    (by simp only [bswap64, Nat.shiftLeft_eq])
  simp only [loadKey, store64, List.range, List.range.loop, List.map]
  simp only [Nat.shiftRight_eq_div_pow (bswap64 k)]
  norm_num
  exact ⟨e0, e1, e2, e3, e4, e5, e6, e7⟩

/-- A 64-bit value is the sum of its eight bytes. -/
theorem sum_of_bytes (a : Nat) (ha : a < U64) :
    a = a % 256 + (a >>> 8) % 256 * 256 + (a >>> 16) % 256 * 65536
      + (a >>> 24) % 256 * 16777216 + (a >>> 32) % 256 * 4294967296
      + (a >>> 40) % 256 * 1099511627776 + (a >>> 48) % 256 * 281474976710656
      + (a >>> 56) % 256 * 72057594037927936 := by
  rw [U64_eq] at ha
  simp only [Nat.shiftRight_eq_div_pow]
  norm_num
  omega

theorem beValue_lt (bs : List Nat) (h : ∀ b ∈ bs, b < 256) :
    beValue bs < 256 ^ bs.length := by
  induction bs with
  | nil => simp [beValue]
  | cons b bs ih =>
    have hb : b < 256 := h b (List.mem_cons_self b bs)
    have ih' := ih (fun x hx => h x (List.mem_cons_of_mem b hx))
    simp only [beValue, List.length_cons, pow_succ]
    have : b * 256 ^ bs.length + 256 ^ bs.length ≤ 256 ^ bs.length * 256 := by
      have := Nat.mul_le_mul_right (256 ^ bs.length) (Nat.succ_le_of_lt hb)
      rw [Nat.succ_mul] at this
      rw [Nat.mul_comm (256 ^ bs.length) 256]
      exact this
    omega

/-- On keys of one length whose entries are bytes, the byte-wise
lexicographic order is the order of the numbers that the keys spell. -/
theorem keyLess_iff_beValue_lt (as bs : List Nat) (hlen : as.length = bs.length)
    (ha : ∀ a ∈ as, a < 256) (hb : ∀ b ∈ bs, b < 256) :
    keyLess as bs = true ↔ beValue as < beValue bs := by
  induction as generalizing bs with
  | nil =>
    cases bs with
    | nil => simp [keyLess, beValue]
    | cons b bs => simp at hlen
  | cons a as ih =>
    cases bs with
    | nil => simp at hlen
    | cons b bs =>
      have hlen' : as.length = bs.length := by simpa using hlen
      have ha' := beValue_lt as (fun x hx => ha x (List.mem_cons_of_mem a hx))
      have hb' := beValue_lt bs (fun x hx => hb x (List.mem_cons_of_mem b hx))
      have ih' := ih bs hlen' (fun x hx => ha x (List.mem_cons_of_mem a hx))
        (fun x hx => hb x (List.mem_cons_of_mem b hx))
      simp only [keyLess, beValue]
      rw [hlen'] at ha' ⊢
      generalize 256 ^ bs.length = P at ha' hb' ⊢
      rcases Nat.lt_trichotomy a b with h | h | h
      · rw [if_pos h]
        have := Nat.mul_le_mul_right P (Nat.succ_le_of_lt h)
        rw [Nat.succ_mul] at this
        simp only [true_iff]
        omega
      · subst h
        rw [if_neg (Nat.lt_irrefl a), if_neg (Nat.lt_irrefl a), ih']
        omega
      · rw [if_neg (Nat.lt_asymm h), if_pos h]
        have := Nat.mul_le_mul_right P (Nat.succ_le_of_lt h)
        rw [Nat.succ_mul] at this
        simp only [Bool.false_eq_true, false_iff]
        omega

/-- The key of a 64-bit value spells that value. -/
theorem beValue_loadKey (a : Nat) (ha : a < U64) : beValue (loadKey a) = a := by
  have h := sum_of_bytes a ha
  rw [loadKey_bytes]
  simp only [beValue, List.length_cons, List.length_nil]
  norm_num
  omega

theorem loadKey_length (a : Nat) : (loadKey a).length = 8 := by
  rw [loadKey_bytes]
  rfl

theorem loadKey_byte_lt (a : Nat) : ∀ b ∈ loadKey a, b < 256 := by
  intro b hb
  rw [loadKey_bytes] at hb
  simp only [List.mem_cons, List.mem_singleton, List.not_mem_nil, or_false] at hb
  rcases hb with h | h | h | h | h | h | h | h <;> subst h <;> exact Nat.mod_lt _ (by decide)

/-- The codec is injective on 64-bit values. -/
theorem loadKey_injective (a b : Nat) (ha : a < U64) (hb : b < U64)
    (h : loadKey a = loadKey b) : a = b := by
  rw [← beValue_loadKey a ha, ← beValue_loadKey b hb, h]

/-- C3: the codec `loadKey` preserves the order and is injective: for 64-bit
`a` and `b`, `a < b` exactly when the key of `a` is below the key of `b` in
the byte-wise lexicographic order, and equal keys come from equal values. -/
theorem loadKey_order_preserving (a b : Nat) (ha : a < U64) (hb : b < U64) :
    (a < b ↔ keyLess (loadKey a) (loadKey b) = true) ∧
      (loadKey a = loadKey b → a = b) := by
  refine ⟨?_, loadKey_injective a b ha hb⟩
  rw [keyLess_iff_beValue_lt (loadKey a) (loadKey b)
    (by rw [loadKey_length, loadKey_length]) (loadKey_byte_lt a) (loadKey_byte_lt b),
    beValue_loadKey a ha, beValue_loadKey b hb]

/-- Witness of C3 at `255` and `256`, which differ in two bytes. -/
theorem loadKey_order_preserving_witness :
    (255 < 256 ↔ keyLess (loadKey 255) (loadKey 256) = true) ∧
      (loadKey 255 = loadKey 256 → 255 = 256) :=
  loadKey_order_preserving 255 256 (by decide) (by decide)

/-- C9: `loadKey k` has length 8 and its byte `j` is byte `7 - j` of `k`, that
is, the key is the big-endian representation of `k`. -/
theorem loadKey_big_endian (k : Nat) :
    (loadKey k).length = 8 ∧
      ∀ j, j < 8 → (loadKey k)[j]? = some ((k >>> (8 * (7 - j))) % 256) := by
  refine ⟨loadKey_length k, ?_⟩
  intro j hj
  rw [loadKey_bytes]
  have : j = 0 ∨ j = 1 ∨ j = 2 ∨ j = 3 ∨ j = 4 ∨ j = 5 ∨ j = 6 ∨ j = 7 := by omega
  rcases this with h | h | h | h | h | h | h | h <;> subst h <;> rfl

/-! ## The measurement of the array index -/

/-- The primary search on a populated table: a target below `N` is found at
its own offset, any other target gives the sentinel. -/
theorem primary_search_populated (N : Nat) (table : List Nat) (t fuel : Nat)
    (hsz : kRecordSize * N < U64) (hl : table.length = kRecordSize * N)
    (htab : ∀ i, i < N → table[i * kRecordSize]? = some i) (hfuel : 64 ≤ fuel) :
    primary_binary_search N fuel table t = .ok (if t < N then t else N + 1) := by
  have hsz' := hsz
  rw [U64_eq] at hsz'
  simp only [kRecordSize] at hsz'
  have hN2 : N + N < U64 := by rw [U64_eq]; omega
  have hw : N - 0 < 2 ^ fuel := by
    simpa using lt_two_pow_fuel (by rw [U64_eq]; omega) hfuel
  have hcol : ∀ m, m < N → primary_key_at table m = .ok (id m) := by
    intro m hm
    obtain ⟨h1, h2⟩ := primary_key_at_eq N table hsz hl m hm
    rw [h1]
    rw [htab m hm] at h2
    rw [← Option.some.inj h2]
    rfl
  rw [primary_binary_search, primary_loop_eq]
  by_cases ht : t < N
  · obtain ⟨v, hv, _, _, hvk⟩ := search_loop_hit N (primary_key_at table) id t hN2 hcol
      (fun i j hij _ => hij) fuel 0 N (Nat.zero_le N) (Nat.le_refl N) hw
      ⟨t, Nat.zero_le t, ht, rfl⟩
    have hvk' : v = t := hvk
    rw [hv, hvk', if_pos ht]
  · obtain ⟨v, hv, hres⟩ := search_loop_sound N (primary_key_at table) id t hN2 hcol
      fuel 0 N (Nat.zero_le N) (Nat.le_refl N) hw
    rw [hv, if_neg ht]
    rcases hres with h | ⟨_, h2, h3⟩
    · rw [h]
    · exfalso
      have : v = t := h3
      omega

/-- The secondary search on the arrays of `main`: a target below `N` is found
at the position that equals it, any other target gives the sentinel. -/
theorem secondary_search_built (N : Nat) (sk table index : List Nat) (t fuel : Nat)
    (hsz : kRecordSize * N < U64) (hperm : sk.Perm (List.range N))
    (htab : ∀ i, i < N → table[i * kRecordSize]? = some i ∧
      table[i * kRecordSize + 1]? = sk[i]?)
    (hidx : ∀ i k : Nat, sk[i]? = some k → index[k]? = some i) (hfuel : 64 ≤ fuel) :
    secondary_binary_search N fuel index table t = .ok (if t < N then t else N + 1) := by
  have hsz' := hsz
  rw [U64_eq] at hsz'
  simp only [kRecordSize] at hsz'
  have hN2 : N + N < U64 := by rw [U64_eq]; omega
  have hw : N - 0 < 2 ^ fuel := by
    simpa using lt_two_pow_fuel (by rw [U64_eq]; omega) hfuel
  have hcol : ∀ m, m < N → secondary_key_at index table m = .ok (id m) :=
    fun m hm => secondary_key_at_eq N sk table index hsz hperm htab hidx m hm
  rw [secondary_binary_search, secondary_loop_eq]
  by_cases ht : t < N
  · obtain ⟨v, hv, _, _, hvk⟩ := search_loop_hit N (secondary_key_at index table) id t hN2
      hcol (fun i j hij _ => hij) fuel 0 N (Nat.zero_le N) (Nat.le_refl N) hw
      ⟨t, Nat.zero_le t, ht, rfl⟩
    have hvk' : v = t := hvk
    rw [hv, hvk', if_pos ht]
  · obtain ⟨v, hv, hres⟩ := search_loop_sound N (secondary_key_at index table) id t hN2
      hcol fuel 0 N (Nat.zero_le N) (Nat.le_refl N) hw
    rw [hv, if_neg ht]
    rcases hres with h | ⟨_, h2, h3⟩
    · rw [h]
    · exfalso
      have : v = t := h3
      omega

/-- C10, as the claim states it, fails: on the table that `main` builds for
`N = 4` the lookup of the target `5 = N + 1` is a miss (it returns the
sentinel `N + 1`), and the step of the measurement loop adds it to the
checksum, which goes from 10 to 15. -/
theorem measurement_step_adds_sentinel :
    ∃ table, populate_table 4 [2, 0, 3, 1] (List.replicate 32 0) = .ok table ∧
      primary_binary_search 4 64 table 5 = .ok (4 + 1) ∧
      array_pri_step 4 64 table [5] 0 10 = .ok 15 :=
  ⟨_, rfl, by decide, by decide⟩

/-- C10, amended: on the table that `main` builds, one step of the
array-primary measurement loop for a target other than `N + 1` adds the lookup
result to the checksum exactly when the lookup is a hit (the result is not the
sentinel `N + 1`) and leaves the checksum as it is on a miss; for the target
`N + 1` the lookup is a miss and the step adds `N + 1`. -/
theorem measurement_step_adds_iff_hit (N : Nat) (sk table0 targets : List Nat)
    (i sum t fuel : Nat) (hsz : kRecordSize * N < U64)
    (hlen : table0.length = kRecordSize * N) (hsk : sk.length = N)
    (hfuel : 64 ≤ fuel) (ht : targets[i]? = some t) :
    ∃ table search, populate_table N sk table0 = .ok table ∧
      primary_binary_search N fuel table t = .ok search ∧
      (t ≠ N + 1 → array_pri_step N fuel table targets i sum
        = .ok (if search ≠ N + 1 then (sum + search) % U64 else sum)) ∧
      (t = N + 1 → search = N + 1 ∧
        array_pri_step N fuel table targets i sum = .ok ((sum + (N + 1)) % U64)) := by
  obtain ⟨table, hbuild, hl, htab⟩ := populate_table_spec N sk table0 hsz hlen hsk
  have hs := primary_search_populated N table t fuel hsz hl (fun i hi => (htab i hi).1) hfuel
  refine ⟨table, _, hbuild, hs, ?_, ?_⟩
  · intro hne
    simp only [array_pri_step, read_of_getElem? ht, hs, bind, Except.bind]
    by_cases htN : t < N
    · have h1 : t ≠ N + 1 := by omega
      simp [htN, h1, pure, Except.pure]
    · simp [htN, hne, pure, Except.pure]
  · intro heq
    subst heq
    simp only [array_pri_step, read_of_getElem? ht, hs, bind, Except.bind]
    have h1 : ¬ N + 1 < N := by omega
    simp [h1, pure, Except.pure]

/-- Witness of the amended C10: a table of four records, the targets
`(3, 9)`, the step for the target 9. -/
theorem measurement_step_adds_iff_hit_witness :
    ∃ table search, populate_table 4 [2, 0, 3, 1] (List.replicate 32 0) = .ok table ∧
      primary_binary_search 4 64 table 9 = .ok search ∧
      (9 ≠ 4 + 1 → array_pri_step 4 64 table [3, 9] 1 7
        = .ok (if search ≠ 4 + 1 then (7 + search) % U64 else 7)) ∧
      (9 = 4 + 1 → search = 4 + 1 ∧
        array_pri_step 4 64 table [3, 9] 1 7 = .ok ((7 + (4 + 1)) % U64)) :=
  measurement_step_adds_iff_hit 4 [2, 0, 3, 1] (List.replicate 32 0) [3, 9] 1 7 9 64
    (by decide) (by decide) (by decide) (by decide) (by decide)

/-! ## References and the external structures -/

/-- Reading through the reference to the word `j` of the table. -/
theorem load64_addr_of (base N : Nat) (table : List Nat) (j : Nat)
    (hbase : base + 8 * (kRecordSize * N) ≤ U64) (hj : j < kRecordSize * N) :
    load64 base table (addr_of base j) = read table j := by
  rw [U64_eq] at hbase
  simp only [kRecordSize] at hbase hj
  have e : addr_of base j = base + 8 * j := by
    rw [addr_of, U64_eq]; omega
  rw [e, load64, if_pos ⟨by omega, by omega⟩]
  congr 1
  omega

/-- Reading the word that follows the referenced one: the address plus 8. -/
theorem load64_addr_of_next (base N : Nat) (table : List Nat) (j : Nat)
    (hbase : base + 8 * (kRecordSize * N) ≤ U64) (hj : j + 1 < kRecordSize * N) :
    load64 base table ((addr_of base j + 8) % U64) = read table (j + 1) := by
  rw [U64_eq] at hbase
  simp only [kRecordSize] at hbase hj
  have e : (addr_of base j + 8) % U64 = base + 8 * (j + 1) := by
    rw [addr_of, U64_eq]; omega
  rw [e, load64, if_pos ⟨by omega, by omega⟩]
  congr 1
  omega

theorem addr_of_ne_zero (base N j : Nat) (h0 : 0 < base)
    (hbase : base + 8 * (kRecordSize * N) ≤ U64) (hj : j < kRecordSize * N) :
    addr_of base j ≠ 0 := by
  rw [U64_eq] at hbase
  simp only [kRecordSize] at hbase hj
  rw [addr_of, U64_eq]
  omega

/-- A loop that appends `f i` in iteration `i` builds the list of the `f i`. -/
theorem forLoop_append {α : Type} (f : Nat → α) (body : Nat → List α → Except Err (List α))
    (N : Nat)
    (h : ∀ n, n < N → body n ((List.range n).map f) = .ok ((List.range n).map f ++ [f n])) :
    forLoop body N [] = .ok ((List.range N).map f) := by
  induction N with
  | zero => rfl
  | succ n ih =>
    simp only [forLoop, ih (fun m hm => h m (Nat.lt_succ_of_lt hm)), bind, Except.bind]
    rw [h n (Nat.lt_succ_self n), List.range_succ, List.map_append]
    rfl

theorem find?_map_range_none {α : Type} (p : α → Bool) (f : Nat → α) (N : Nat)
    (h : ∀ j, j < N → p (f j) = false) : ((List.range N).map f).find? p = none := by
  rw [List.find?_eq_none]
  intro x hx
  obtain ⟨j, hj, rfl⟩ := List.mem_map.mp hx
  simp [h j (List.mem_range.mp hj)]

/-- The first entry that satisfies `p` among the `f j`, when only `f i` does. -/
theorem find?_map_range {α : Type} (p : α → Bool) (f : Nat → α) (N i : Nat) (hi : i < N)
    (hp : p (f i) = true) (huniq : ∀ j, j < N → p (f j) = true → j = i) :
    ((List.range N).map f).find? p = some (f i) := by
  induction N with
  | zero => exact absurd hi (Nat.not_lt_zero i)
  | succ n ih =>
    rw [List.range_succ, List.map_append, List.find?_append]
    by_cases hin : i < n
    · rw [ih hin (fun j hj hpj => huniq j (Nat.lt_succ_of_lt hj) hpj)]
      rfl
    · have hie : i = n := by omega
      subst hie
      rw [find?_map_range_none p f i]
      · simp [hp]
      · intro j hj
        cases hpj : p (f j) with
        | false => rfl
        | true =>
          have := huniq j (Nat.lt_succ_of_lt hj) hpj
          omega

/-- The B+tree of the primary keys. -/
theorem build_btree_pri_eq (base N : Nat) :
    build_btree_pri base N
      = .ok ((List.range N).map fun i => (i, addr_of base ((i * kRecordSize) % U64))) := by
  apply forLoop_append (fun i => (i, addr_of base ((i * kRecordSize) % U64)))
  intro n _
  have hnone : BTree.find
      ((List.range n).map fun i => (i, addr_of base ((i * kRecordSize) % U64))) n = none := by
    rw [BTree.find, find?_map_range_none]
    · rfl
    · intro j hj
      simp only [beq_eq_false_iff_ne, ne_eq]
      omega
  simp only [BTree.insert, hnone]

/-- The B+tree of the secondary keys. -/
theorem build_btree_sec_eq (base N : Nat) (sk : List Nat) (hperm : sk.Perm (List.range N)) :
    build_btree_sec base N sk
      = .ok ((List.range N).map fun i =>
          (sk.getD i 0, addr_of base ((i * kRecordSize) % U64))) := by
  obtain ⟨hsk, _, hinj, _⟩ := perm_range_facts hperm
  apply forLoop_append (fun i => (sk.getD i 0, addr_of base ((i * kRecordSize) % U64)))
  intro n hn
  have hn' : n < sk.length := by omega
  have hgetn : sk[n]? = some (sk.getD n 0) := by
    simp [List.getD, List.getElem?_eq_getElem hn']
  have hnone : BTree.find
      ((List.range n).map fun i => (sk.getD i 0, addr_of base ((i * kRecordSize) % U64)))
      (sk.getD n 0) = none := by
    rw [BTree.find, find?_map_range_none]
    · rfl
    · intro j hj
      simp only [beq_eq_false_iff_ne, ne_eq]
      intro hjn
      have hj' : j < sk.length := by omega
      have hgetj : sk[j]? = some (sk.getD j 0) := by
        simp [List.getD, List.getElem?_eq_getElem hj']
      rw [hjn] at hgetj
      have := hinj j n _ hgetj hgetn
      omega
  simp only [read_of_getElem? hgetn, bind, Except.bind, pure, Except.pure, BTree.insert, hnone]

/-- The trie of the primary keys. -/
theorem build_art_pri_eq (base N : Nat) :
    build_art_pri base N
      = .ok ((List.range N).map fun i =>
          (loadKey i, addr_of base ((i * kRecordSize) % U64))) := by
  apply forLoop_append (fun i => (loadKey i, addr_of base ((i * kRecordSize) % U64)))
  intro n _
  rfl

/-- The trie of the secondary keys. -/
theorem build_art_sec_eq (base N : Nat) (sk : List Nat) (hsk : sk.length = N) :
    build_art_sec base N sk
      = .ok ((List.range N).map fun i =>
          (loadKey (sk.getD i 0), addr_of base ((i * kRecordSize) % U64))) := by
  apply forLoop_append
    (fun i => (loadKey (sk.getD i 0), addr_of base ((i * kRecordSize) % U64)))
  intro n hn
  have hn' : n < sk.length := by omega
  have hgetn : sk[n]? = some (sk.getD n 0) := by
    simp [List.getD, List.getElem?_eq_getElem hn']
  simp only [read_of_getElem? hgetn, bind, Except.bind, pure, Except.pure, ARTIndex.insert]

theorem getD_of_lt (sk : List Nat) (i : Nat) (h : i < sk.length) :
    sk[i]? = some (sk.getD i 0) := by
  simp [List.getD, List.getElem?_eq_getElem h]

theorem btree_pri_find (base N t : Nat) (ht : t < N) :
    BTree.find ((List.range N).map fun i => (i, addr_of base ((i * kRecordSize) % U64))) t
      = some (addr_of base ((t * kRecordSize) % U64)) := by
  rw [BTree.find, find?_map_range _ _ N t ht (by simp)]
  · rfl
  · intro j _ hj
    simpa using hj

theorem btree_sec_find (base N : Nat) (sk : List Nat) (hperm : sk.Perm (List.range N))
    (i k : Nat) (hik : sk[i]? = some k) :
    BTree.find ((List.range N).map fun i =>
        (sk.getD i 0, addr_of base ((i * kRecordSize) % U64))) k
      = some (addr_of base ((i * kRecordSize) % U64)) := by
  obtain ⟨hsk, _, hinj, _⟩ := perm_range_facts hperm
  obtain ⟨hi, _⟩ := List.getElem?_eq_some.mp hik
  have hki : sk.getD i 0 = k := by
    have := getD_of_lt sk i hi
    rw [hik] at this
    exact (Option.some.inj this).symm
  rw [BTree.find, find?_map_range _ _ N i (by omega) (by simp [hik])]
  · rfl
  · intro j hj hpj
    have hjk : sk.getD j 0 = k := by simpa using hpj
    have := getD_of_lt sk j (by omega)
    rw [hjk] at this
    exact hinj j i k this hik

theorem art_pri_lookup (base N i : Nat) (hN : N ≤ U64) (hi : i < N) :
    ARTIndex.lookup ((List.range N).map fun i =>
        (loadKey i, addr_of base ((i * kRecordSize) % U64))) (loadKey i)
      = addr_of base ((i * kRecordSize) % U64) := by
  rw [ARTIndex.lookup, find?_map_range _ _ N i hi (by simp)]
  intro j hj hpj
  have hjk : loadKey j = loadKey i := by simpa using hpj
  exact loadKey_injective j i (by omega) (by omega) hjk

theorem art_sec_lookup (base N : Nat) (sk : List Nat) (hN : N ≤ U64)
    (hperm : sk.Perm (List.range N)) (i k : Nat) (hik : sk[i]? = some k) :
    ARTIndex.lookup ((List.range N).map fun i =>
        (loadKey (sk.getD i 0), addr_of base ((i * kRecordSize) % U64))) (loadKey k)
      = addr_of base ((i * kRecordSize) % U64) := by
  obtain ⟨hsk, hlt, hinj, _⟩ := perm_range_facts hperm
  obtain ⟨hi, _⟩ := List.getElem?_eq_some.mp hik
  have hki : sk.getD i 0 = k := by
    have := getD_of_lt sk i hi
    rw [hik] at this
    exact (Option.some.inj this).symm
  rw [ARTIndex.lookup, find?_map_range _ _ N i (by omega) (by simp [hik])]
  intro j hj hpj
  have hjk : loadKey (sk.getD j 0) = loadKey k := by simpa using hpj
  have hgj := getD_of_lt sk j (by omega)
  have hjN : sk.getD j 0 < N := hlt j _ hgj
  have hkN : k < N := hlt i k hik
  have := loadKey_injective _ _ (by omega) (by omega) hjk
  rw [this] at hgj
  exact hinj j i k hgj hik

/-- A loop whose body adds the target `i` to the sum computes the wrapping
sum of the targets. -/
theorem forLoop_wrapping_sum (body : Nat → Nat → Except Err Nat) (targets : List Nat)
    (M : Nat)
    (hbody : ∀ i sum, i < M → body i sum = .ok ((sum + targets.getD i 0) % U64)) :
    forLoop body M 0 = .ok (wrapping_sum targets M) := by
  induction M with
  | zero => rfl
  | succ n ih =>
    simp only [forLoop, ih (fun i sum hi => hbody i sum (Nat.lt_succ_of_lt hi)), bind,
      Except.bind]
    rw [hbody n _ (Nat.lt_succ_self n)]
    rfl

/-! ## The six measurement loops -/

theorem record_offset_eq (N i : Nat) (hsz : kRecordSize * N < U64) (hi : i < N) :
    (i * kRecordSize) % U64 = i * kRecordSize ∧ i * kRecordSize + 1 < kRecordSize * N := by
  rw [U64_eq] at hsz ⊢
  simp only [kRecordSize] at hsz ⊢
  omega

theorem table_size_of_extent (base N : Nat) (hbase : base + 8 * (kRecordSize * N) ≤ U64) :
    kRecordSize * N < U64 ∧ N ≤ U64 := by
  rw [U64_eq] at hbase ⊢
  simp only [kRecordSize] at hbase ⊢
  omega

theorem array_pri_step_eq (N fuel : Nat) (table targets : List Nat) (i sum t : Nat)
    (hsz : kRecordSize * N < U64) (hl : table.length = kRecordSize * N)
    (htab : ∀ i, i < N → table[i * kRecordSize]? = some i) (hfuel : 64 ≤ fuel)
    (ht : targets[i]? = some t) (htN : t < N) :
    array_pri_step N fuel table targets i sum = .ok ((sum + t) % U64) := by
  simp [array_pri_step, read_of_getElem? ht,
    primary_search_populated N table t fuel hsz hl htab hfuel, bind, Except.bind, htN, pure,
    Except.pure]

theorem array_sec_step_eq (N fuel : Nat) (sk index table targets : List Nat) (i sum t : Nat)
    (hsz : kRecordSize * N < U64) (hperm : sk.Perm (List.range N))
    (htab : ∀ i, i < N → table[i * kRecordSize]? = some i ∧
      table[i * kRecordSize + 1]? = sk[i]?)
    (hidx : ∀ i k : Nat, sk[i]? = some k → index[k]? = some i) (hfuel : 64 ≤ fuel)
    (ht : targets[i]? = some t) (htN : t < N) :
    array_sec_step N fuel index table targets i sum = .ok ((sum + t) % U64) := by
  simp [array_sec_step, read_of_getElem? ht,
    secondary_search_built N sk table index t fuel hsz hperm htab hidx hfuel, bind,
    Except.bind, htN, pure, Except.pure]

theorem btree_pri_step_eq (base N : Nat) (table targets : List Nat) (i sum t : Nat)
    (hbase : base + 8 * (kRecordSize * N) ≤ U64)
    (htab : ∀ i, i < N → table[i * kRecordSize]? = some i)
    (ht : targets[i]? = some t) (htN : t < N) :
    btree_pri_step base table
        ((List.range N).map fun i => (i, addr_of base ((i * kRecordSize) % U64)))
        targets i sum = .ok ((sum + t) % U64) := by
  obtain ⟨hsz, _⟩ := table_size_of_extent base N hbase
  obtain ⟨e1, e2⟩ := record_offset_eq N t hsz htN
  simp only [btree_pri_step, read_of_getElem? ht, btree_pri_find base N t htN, bind,
    Except.bind, e1]
  rw [load64_addr_of base N table _ hbase (by omega), read_of_getElem? (htab t htN)]
  rfl

theorem btree_sec_step_eq (base N : Nat) (sk table targets : List Nat) (i sum t : Nat)
    (hbase : base + 8 * (kRecordSize * N) ≤ U64) (hperm : sk.Perm (List.range N))
    (htab : ∀ i, i < N → table[i * kRecordSize + 1]? = sk[i]?)
    (ht : targets[i]? = some t) (htN : t < N) :
    btree_sec_step base table
        ((List.range N).map fun i => (sk.getD i 0, addr_of base ((i * kRecordSize) % U64)))
        targets i sum = .ok ((sum + t) % U64) := by
  obtain ⟨hsz, _⟩ := table_size_of_extent base N hbase
  obtain ⟨_, _, _, hsurj⟩ := perm_range_facts hperm
  obtain ⟨r, hr, hrt⟩ := hsurj t htN
  obtain ⟨e1, e2⟩ := record_offset_eq N r hsz hr
  simp only [btree_sec_step, read_of_getElem? ht, btree_sec_find base N sk hperm r t hrt,
    bind, Except.bind, e1]
  rw [load64_addr_of_next base N table _ hbase e2,
    read_of_getElem? ((htab r hr).trans hrt)]
  rfl

theorem art_pri_step_eq (base N : Nat) (table targets : List Nat) (i sum t : Nat)
    (h0 : 0 < base) (hbase : base + 8 * (kRecordSize * N) ≤ U64)
    (htab : ∀ i, i < N → table[i * kRecordSize]? = some i)
    (ht : targets[i]? = some t) (htN : t < N) :
    art_pri_step base table
        ((List.range N).map fun i => (loadKey i, addr_of base ((i * kRecordSize) % U64)))
        targets i sum = .ok ((sum + t) % U64) := by
  obtain ⟨hsz, hN⟩ := table_size_of_extent base N hbase
  obtain ⟨e1, e2⟩ := record_offset_eq N t hsz htN
  simp only [art_pri_step, read_of_getElem? ht, art_pri_lookup base N t hN htN, bind,
    Except.bind, e1]
  rw [if_pos (addr_of_ne_zero base N _ h0 hbase (by omega)),
    load64_addr_of base N table _ hbase (by omega), read_of_getElem? (htab t htN)]
  rfl

theorem art_sec_step_eq (base N : Nat) (sk table targets : List Nat) (i sum t : Nat)
    (h0 : 0 < base) (hbase : base + 8 * (kRecordSize * N) ≤ U64)
    (hperm : sk.Perm (List.range N))
    (htab : ∀ i, i < N → table[i * kRecordSize + 1]? = sk[i]?)
    (ht : targets[i]? = some t) (htN : t < N) :
    art_sec_step base table
        ((List.range N).map fun i =>
          (loadKey (sk.getD i 0), addr_of base ((i * kRecordSize) % U64)))
        targets i sum = .ok ((sum + t) % U64) := by
  obtain ⟨hsz, hN⟩ := table_size_of_extent base N hbase
  obtain ⟨_, _, _, hsurj⟩ := perm_range_facts hperm
  obtain ⟨r, hr, hrt⟩ := hsurj t htN
  obtain ⟨e1, e2⟩ := record_offset_eq N r hsz hr
  simp only [art_sec_step, read_of_getElem? ht, art_sec_lookup base N sk hN hperm r t hrt,
    bind, Except.bind, e1]
  rw [if_pos (addr_of_ne_zero base N _ h0 hbase (by omega)),
    load64_addr_of_next base N table _ hbase e2, read_of_getElem? ((htab r hr).trans hrt)]
  rfl

/-- C8: for every record `i` of the table that `main` builds, the entry that
the build inserts for it in the primary (secondary) trie has the key
`loadKey i` (`loadKey secondary_keys[i]`) and the reference to the record; the
key that the callback `loadKeyPri` (`loadKeySec`) derives from that reference
is the same key, of length 8; and the lookup with the key `loadKey t` built
for the target `t = i` (`t = secondary_keys[i]`) gives that reference. -/
theorem codec_build_lookup_callback_agree (base N : Nat) (sk table0 : List Nat)
    (hbase : base + 8 * (kRecordSize * N) ≤ U64)
    (hlen : table0.length = kRecordSize * N) (hperm : sk.Perm (List.range N)) :
    ∃ table art_pri art_sec, populate_table N sk table0 = .ok table ∧
      build_art_pri base N = .ok art_pri ∧ build_art_sec base N sk = .ok art_sec ∧
      ∀ i, i < N → ∃ k tid, sk[i]? = some k ∧
        tid = addr_of base ((i * kRecordSize) % U64) ∧
        art_pri[i]? = some (loadKey i, tid) ∧ art_sec[i]? = some (loadKey k, tid) ∧
        loadKeyPri base table tid = .ok (loadKey i) ∧
        loadKeySec base table tid = .ok (loadKey k) ∧
        (loadKey i).length = 8 ∧ (loadKey k).length = 8 ∧
        (∀ t, t = i → loadKey t = loadKey i ∧ ARTIndex.lookup art_pri (loadKey t) = tid) ∧
        (∀ t, t = k → loadKey t = loadKey k ∧ ARTIndex.lookup art_sec (loadKey t) = tid) := by
  obtain ⟨hsz, hN⟩ := table_size_of_extent base N hbase
  obtain ⟨hsk, _, _, _⟩ := perm_range_facts hperm
  obtain ⟨table, hbuild, hl, htab⟩ := populate_table_spec N sk table0 hsz hlen hsk
  refine ⟨table, _, _, hbuild, build_art_pri_eq base N, build_art_sec_eq base N sk hsk, ?_⟩
  intro i hi
  have hik := getD_of_lt sk i (by omega)
  obtain ⟨e1, e2⟩ := record_offset_eq N i hsz hi
  refine ⟨sk.getD i 0, _, hik, rfl, ?_, ?_, ?_, ?_, loadKey_length _, loadKey_length _, ?_, ?_⟩
  · simp [List.getElem?_range hi]
  · simp [List.getElem?_range hi]
  · rw [loadKeyPri, e1, load64_addr_of base N table _ hbase (by omega),
      read_of_getElem? (htab i hi).1]
    rfl
  · rw [loadKeySec, e1, load64_addr_of_next base N table _ hbase e2,
      read_of_getElem? ((htab i hi).2.trans hik)]
    rfl
  · intro t ht
    subst ht
    exact ⟨rfl, art_pri_lookup base N t hN hi⟩
  · intro t ht
    subst ht
    exact ⟨rfl, art_sec_lookup base N sk hN hperm i _ hik⟩

/-- Witness of C8: four records at the address 4096. -/
theorem codec_build_lookup_callback_agree_witness :
    ∃ table art_pri art_sec, populate_table 4 [2, 0, 3, 1] (List.replicate 32 0) = .ok table ∧
      build_art_pri 4096 4 = .ok art_pri ∧ build_art_sec 4096 4 [2, 0, 3, 1] = .ok art_sec ∧
      ∀ i, i < 4 → ∃ k tid, [2, 0, 3, 1][i]? = some k ∧
        tid = addr_of 4096 ((i * kRecordSize) % U64) ∧
        art_pri[i]? = some (loadKey i, tid) ∧ art_sec[i]? = some (loadKey k, tid) ∧
        loadKeyPri 4096 table tid = .ok (loadKey i) ∧
        loadKeySec 4096 table tid = .ok (loadKey k) ∧
        (loadKey i).length = 8 ∧ (loadKey k).length = 8 ∧
        (∀ t, t = i → loadKey t = loadKey i ∧ ARTIndex.lookup art_pri (loadKey t) = tid) ∧
        (∀ t, t = k → loadKey t = loadKey k ∧ ARTIndex.lookup art_sec (loadKey t) = tid) :=
  codec_build_lookup_callback_agree 4096 4 [2, 0, 3, 1] (List.replicate 32 0)
    (by decide) (by decide) (by decide)

/-- C4: when the table lies in the address space at a non-null address, the
shuffle returns `0, ..., N - 1` in some order and all `M` targets are below
`N`, `main` computes its six sums and they are all equal. -/
theorem checksums_agree (shuffle : List Nat → List Nat) (base N M fuel : Nat)
    (table0 index0 targets : List Nat) (h0 : 0 < base)
    (hbase : base + 8 * (kRecordSize * N) ≤ U64)
    (hshuffle : (shuffle (List.range N)).Perm (List.range N))
    (hlen : table0.length = kRecordSize * N) (hilen : index0.length = N)
    (hM : targets.length = M) (ht : ∀ t, t ∈ targets → t < N) (hfuel : 64 ≤ fuel) :
    ∃ c, main_checksums shuffle base N M fuel table0 index0 targets = .ok c ∧
      c.array_sec = c.array_pri ∧ c.btree_pri = c.array_pri ∧ c.btree_sec = c.array_pri ∧
      c.art_pri = c.array_pri ∧ c.art_sec = c.array_pri := by
  obtain ⟨hsz, hN⟩ := table_size_of_extent base N hbase
  obtain ⟨hsk, _, _, _⟩ := perm_range_facts hshuffle
  obtain ⟨table, hbuild, hl, htab⟩ :=
    populate_table_spec N (shuffle (List.range N)) table0 hsz hlen hsk
  obtain ⟨index, hibuild, hil, hidx⟩ :=
    build_secondary_index_spec N (shuffle (List.range N)) index0 hshuffle hilen
  have hget : ∀ i, i < M → targets[i]? = some (targets.getD i 0) ∧ targets.getD i 0 < N := by
    intro i hi
    have h := getD_of_lt targets i (by omega)
    exact ⟨h, ht _ (List.mem_iff_getElem?.mpr ⟨i, h⟩)⟩
  have s1 := forLoop_wrapping_sum (array_pri_step N fuel table targets) targets M
    (fun i sum hi => array_pri_step_eq N fuel table targets i sum _ hsz hl
      (fun j hj => (htab j hj).1) hfuel (hget i hi).1 (hget i hi).2)
  have s2 := forLoop_wrapping_sum (array_sec_step N fuel index table targets) targets M
    (fun i sum hi => array_sec_step_eq N fuel (shuffle (List.range N)) index table targets
      i sum _ hsz hshuffle htab hidx hfuel (hget i hi).1 (hget i hi).2)
  have s3 := forLoop_wrapping_sum (btree_pri_step base table
      ((List.range N).map fun i => (i, addr_of base ((i * kRecordSize) % U64))) targets)
    targets M
    (fun i sum hi => btree_pri_step_eq base N table targets i sum _ hbase
      (fun j hj => (htab j hj).1) (hget i hi).1 (hget i hi).2)
  have s4 := forLoop_wrapping_sum (btree_sec_step base table
      ((List.range N).map fun i =>
        ((shuffle (List.range N)).getD i 0, addr_of base ((i * kRecordSize) % U64)))
      targets) targets M
    (fun i sum hi => btree_sec_step_eq base N (shuffle (List.range N)) table targets i sum _
      hbase hshuffle (fun j hj => (htab j hj).2) (hget i hi).1 (hget i hi).2)
  have s5 := forLoop_wrapping_sum (art_pri_step base table
      ((List.range N).map fun i => (loadKey i, addr_of base ((i * kRecordSize) % U64)))
      targets) targets M
    (fun i sum hi => art_pri_step_eq base N table targets i sum _ h0 hbase
      (fun j hj => (htab j hj).1) (hget i hi).1 (hget i hi).2)
  have s6 := forLoop_wrapping_sum (art_sec_step base table
      ((List.range N).map fun i =>
        (loadKey ((shuffle (List.range N)).getD i 0),
          addr_of base ((i * kRecordSize) % U64)))
      targets) targets M
    (fun i sum hi => art_sec_step_eq base N (shuffle (List.range N)) table targets i sum _
      h0 hbase hshuffle (fun j hj => (htab j hj).2) (hget i hi).1 (hget i hi).2)
  refine ⟨⟨wrapping_sum targets M, wrapping_sum targets M, wrapping_sum targets M,
    wrapping_sum targets M, wrapping_sum targets M, wrapping_sum targets M⟩,
    ?_, rfl, rfl, rfl, rfl, rfl⟩
  simp only [main_checksums, build_dataset, measure_all, iota_keys_eq, hbuild, hibuild,
    build_btree_pri_eq, build_btree_sec_eq base N _ hshuffle, build_art_pri_eq,
    build_art_sec_eq base N _ hsk, bind, Except.bind, pure, Except.pure,
    s1, s2, s3, s4, s5, s6]

/-- Witness of C4: four records at the address 4096 and six lookups. -/
theorem checksums_agree_witness :
    ∃ c, main_checksums (fun _ => [2, 0, 3, 1]) 4096 4 6 64 (List.replicate 32 77)
        (List.replicate 4 99) [0, 1, 2, 3, 3, 2] = .ok c ∧
      c.array_sec = c.array_pri ∧ c.btree_pri = c.array_pri ∧ c.btree_sec = c.array_pri ∧
      c.art_pri = c.array_pri ∧ c.art_sec = c.array_pri :=
  checksums_agree (fun _ => [2, 0, 3, 1]) 4096 4 6 64 (List.replicate 32 77)
    (List.replicate 4 99) [0, 1, 2, 3, 3, 2] (by decide) (by decide) (by decide)
    (by decide) (by decide) (by decide) (by decide) (by decide)

/-! ## The iterations of the search loop -/

theorem search_loop_exit (N : Nat) (key_at : Nat → Except Err Nat) (target fuel l r : Nat)
    (h : ¬ l < r) : search_loop N key_at target fuel l r = .ok ((N + 1) % U64) := by
  unfold search_loop
  rw [if_neg h]

theorem search_loop_zero (N : Nat) (key_at : Nat → Except Err Nat) (target l r : Nat)
    (h : l < r) : search_loop N key_at target 0 l r = .error .outOfFuel := by
  unfold search_loop
  rw [if_pos h]

/-- The loop is the iteration of its body. -/
theorem search_loop_succ (N : Nat) (key_at : Nat → Except Err Nat) (target fuel l r : Nat)
    (hlt : l < r) :
    search_loop N key_at target (fuel + 1) l r =
      match search_body key_at target l r with
      | .ret m => .ok m
      | .next l' r' => search_loop N key_at target fuel l' r'
      | .fault e => .error e := by
  rw [search_loop, if_pos hlt]
  simp only [search_body]
  cases key_at (((l + r) % U64) >>> 1) with
  | error e => rfl
  | ok v =>
    simp only
    split
    · rfl
    · split <;> rfl

/-- What a body execution without overflow does to the bounds: they stay
ordered and inside the old ones, and the width at least halves. -/
theorem search_body_next (N : Nat) (key_at : Nat → Except Err Nat) (target l r l' r' : Nat)
    (hN : N + N < U64) (hlt : l < r) (hr : r ≤ N)
    (h : search_body key_at target l r = .next l' r') :
    l ≤ l' ∧ l' ≤ r' ∧ r' ≤ r ∧ r' - l' ≤ (r - l) / 2 := by
  have hm := mid_eq hN (Nat.le_of_lt hlt) hr
  have hU := U64_eq
  simp only [search_body, hm] at h
  cases hk : key_at ((l + r) / 2) with
  | error e => simp [hk] at h
  | ok v =>
    simp only [hk] at h
    split at h
    · cases h
      omega
    · split at h
      · cases h
      · rw [Nat.mod_eq_of_lt (by omega)] at h
        cases h
        omega

/-- The bounds after `n` body executions stay inside the first ones, and their
width is at most the first width halved `n` times. -/
theorem bounds_after_inv (N : Nat) (key_at : Nat → Except Err Nat) (target : Nat)
    (hN : N + N < U64) :
    ∀ n l r l' r', l ≤ r → r ≤ N → bounds_after key_at target n l r = some (l', r') →
      l ≤ l' ∧ l' ≤ r' ∧ r' ≤ r ∧ (r' - l') * 2 ^ n ≤ r - l := by
  intro n
  induction n with
  | zero =>
    intro l r l' r' hl hr h
    simp only [bounds_after, Option.some.injEq, Prod.mk.injEq] at h
    obtain ⟨rfl, rfl⟩ := h
    simp [hl]
  | succ n ih =>
    intro l r l' r' hl hr h
    rw [bounds_after] at h
    split at h
    · rename_i hlt
      cases hb : search_body key_at target l r with
      | ret m => simp [hb] at h
      | fault e => simp [hb] at h
      | next l1 r1 =>
        simp only [hb] at h
        obtain ⟨h1, h2, h3, h4⟩ := search_body_next N key_at target l r l1 r1 hN hlt hr hb
        obtain ⟨g1, g2, g3, g4⟩ := ih l1 r1 l' r' h2 (by omega) h
        refine ⟨by omega, g2, by omega, ?_⟩
        rw [pow_succ, ← Nat.mul_assoc]
        have : (r' - l') * 2 ^ n * 2 ≤ (r1 - l1) * 2 := Nat.mul_le_mul_right 2 g4
        omega
    · cases h

/-- The loop does not run out of fuel when the width is below `2 ^ fuel`,
whatever the reads give. -/
theorem search_loop_fuel (N : Nat) (key_at : Nat → Except Err Nat) (target : Nat)
    (hN : N + N < U64) (hkey : ∀ m, key_at m ≠ .error .outOfFuel) :
    ∀ fuel l r, l ≤ r → r ≤ N → r - l < 2 ^ fuel →
      search_loop N key_at target fuel l r ≠ .error .outOfFuel := by
  intro fuel
  induction fuel with
  | zero =>
    intro l r hl hr hw
    have : ¬ l < r := by simp at hw; omega
    rw [search_loop, if_neg this]
    simp
  | succ f ih =>
    intro l r hl hr hw
    by_cases hlt : l < r
    · rw [search_loop_succ N key_at target f l r hlt]
      cases hb : search_body key_at target l r with
      | ret m => simp
      | fault e =>
        simp only
        intro he
        have he' : e = Err.outOfFuel := by cases he; rfl
        subst he'
        simp only [search_body] at hb
        cases hk : key_at (((l + r) % U64) >>> 1) with
        | error e' =>
          simp only [hk] at hb
          cases hb
          exact hkey _ hk
        | ok v =>
          simp only [hk] at hb
          split at hb
          · cases hb
          · split at hb <;> cases hb
      | next l1 r1 =>
        simp only
        obtain ⟨h1, h2, h3, h4⟩ := search_body_next N key_at target l r l1 r1 hN hlt hr hb
        rw [pow_succ] at hw
        exact ih l1 r1 h2 (by omega) (by omega)
    · rw [search_loop, if_neg hlt]
      simp

/-- More fuel does not change the result of a loop that has enough of it. -/
theorem search_loop_more_fuel (N : Nat) (key_at : Nat → Except Err Nat) (target : Nat) :
    ∀ fuel d l r, search_loop N key_at target fuel l r ≠ .error .outOfFuel →
      search_loop N key_at target (fuel + d) l r = search_loop N key_at target fuel l r := by
  intro fuel
  induction fuel with
  | zero =>
    intro d l r h
    by_cases hlt : l < r
    · exact absurd (search_loop_zero N key_at target l r hlt) h
    · rw [search_loop_exit N key_at target _ l r hlt, search_loop_exit N key_at target _ l r hlt]
  | succ f ih =>
    intro d l r h
    by_cases hlt : l < r
    · rw [Nat.add_right_comm, search_loop_succ N key_at target (f + d) l r hlt]
      rw [search_loop_succ N key_at target f l r hlt] at h ⊢
      cases hb : search_body key_at target l r with
      | ret m => rfl
      | fault e => rfl
      | next l1 r1 =>
        simp only [hb] at h ⊢
        exact ih d l1 r1 h
    · rw [search_loop_exit N key_at target _ l r hlt, search_loop_exit N key_at target _ l r hlt]

/-- The loop runs out of fuel exactly when its condition still holds after
`fuel` executions of its body. -/
theorem search_loop_outOfFuel_iff (N : Nat) (key_at : Nat → Except Err Nat) (target : Nat)
    (hkey : ∀ m, key_at m ≠ .error .outOfFuel) :
    ∀ fuel l r, search_loop N key_at target fuel l r = .error .outOfFuel ↔
      ∃ l' r', bounds_after key_at target fuel l r = some (l', r') ∧ l' < r' := by
  intro fuel
  induction fuel with
  | zero =>
    intro l r
    by_cases hlt : l < r
    · rw [search_loop_zero N key_at target l r hlt]
      simp only [bounds_after, true_iff]
      exact ⟨l, r, rfl, hlt⟩
    · rw [search_loop, if_neg hlt]
      simp only [bounds_after, Option.some.injEq, Prod.mk.injEq]
      constructor
      · intro h; cases h
      · rintro ⟨l', r', ⟨rfl, rfl⟩, h⟩
        exact absurd h hlt
  | succ f ih =>
    intro l r
    by_cases hlt : l < r
    · rw [search_loop_succ N key_at target f l r hlt, bounds_after, if_pos hlt]
      cases hb : search_body key_at target l r with
      | ret m => simp
      | fault e =>
        simp only
        constructor
        · intro he
          exfalso
          have he' : e = Err.outOfFuel := by cases he; rfl
          subst he'
          simp only [search_body] at hb
          cases hk : key_at (((l + r) % U64) >>> 1) with
          | error e' =>
            simp only [hk] at hb
            cases hb
            exact hkey _ hk
          | ok v =>
            simp only [hk] at hb
            split at hb
            · cases hb
            · split at hb <;> cases hb
        · rintro ⟨l', r', h, _⟩
          cases h
      | next l1 r1 =>
        simp only
        exact ih l1 r1
    · rw [search_loop, if_neg hlt, bounds_after, if_neg hlt]
      simp

theorem read_ne_outOfFuel (mem : List Nat) (i : Nat) : read mem i ≠ .error .outOfFuel := by
  unfold read
  cases mem[i]? <;> simp

theorem primary_key_at_ne_outOfFuel (table : List Nat) (m : Nat) :
    primary_key_at table m ≠ .error .outOfFuel :=
  read_ne_outOfFuel _ _

theorem secondary_key_at_ne_outOfFuel (index table : List Nat) (m : Nat) :
    secondary_key_at index table m ≠ .error .outOfFuel := by
  unfold secondary_key_at
  cases h : read index m with
  | error e =>
    simp only
    intro he
    cases he
    exact read_ne_outOfFuel _ _ h
  | ok p => exact read_ne_outOfFuel _ _

/-! ## Claims on sorted columns, the secondary search and the array sums -/

/-- C11: for `2 * N < 2 ^ 64`, on a table whose primary-key column
`table[m * kRecordSize]`, `m` in `[0, N)`, is non-decreasing (the index is
computed in 64 bits, as the program computes it), the primary search of a
target that occurs in the column returns an offset below `N` that holds the
target, never the sentinel; when the column is strictly increasing that offset
is the only one that holds the target. -/
theorem primary_search_sorted_column (N : Nat) (table : List Nat) (col : Nat → Nat)
    (target k fuel : Nat) (hN : 2 * N < U64)
    (hcol : ∀ m, m < N → table[(m * kRecordSize) % U64]? = some (col m))
    (hmono : ∀ i j, i ≤ j → j < N → col i ≤ col j)
    (hk : k < N) (hkt : col k = target) (hfuel : 64 ≤ fuel) :
    ∃ v, primary_binary_search N fuel table target = .ok v ∧ v < N ∧
      v ≠ (N + 1) % U64 ∧ table[(v * kRecordSize) % U64]? = some target ∧
      ((∀ i j, i < j → j < N → col i < col j) →
        v = k ∧ ∀ m, m < N → col m = target → m = v) := by
  have hN' := hN
  rw [U64_eq] at hN'
  have hN2 : N + N < U64 := by rw [U64_eq]; omega
  obtain ⟨v, hv, _, hvN, hvt⟩ := search_loop_hit N (primary_key_at table) col target hN2
    (fun m hm => read_of_getElem? (hcol m hm)) hmono fuel 0 N (Nat.zero_le N)
    (Nat.le_refl N) (by simpa using lt_two_pow_fuel (by rw [U64_eq]; omega) hfuel)
    ⟨k, Nat.zero_le k, hk, hkt⟩
  refine ⟨v, by rw [primary_binary_search, primary_loop_eq]; exact hv, hvN, ?_, ?_, ?_⟩
  · rw [U64_eq]; omega
  · rw [hcol v hvN, hvt]
  · intro hstrict
    have huniq : ∀ a b, a < N → b < N → col a = col b → a = b := by
      intro a b ha hb hab
      rcases Nat.lt_trichotomy a b with h | h | h
      · have := hstrict a b h hb
        omega
      · exact h
      · have := hstrict b a h ha
        omega
    exact ⟨huniq v k hvN hk (hvt.trans hkt.symm),
      fun m hm hmt => huniq m v hm hvN (hmt.trans hvt.symm)⟩

/-- Witness of C11: three records with the primary keys `1, 3, 4`. -/
theorem primary_search_sorted_column_witness :
    ∃ v, primary_binary_search 3 64
        [1, 0, 0, 0, 0, 0, 0, 0, 3, 0, 0, 0, 0, 0, 0, 0, 4, 0, 0, 0, 0, 0, 0, 0] 3 = .ok v ∧
      v < 3 ∧ v ≠ (3 + 1) % U64 ∧
      [1, 0, 0, 0, 0, 0, 0, 0, 3, 0, 0, 0, 0, 0, 0, 0, 4, 0, 0, 0, 0, 0, 0, 0][
        (v * kRecordSize) % U64]? = some 3 ∧
      ((∀ i j, i < j → j < 3 → [1, 3, 4].getD i 0 < [1, 3, 4].getD j 0) →
        v = 1 ∧ ∀ m, m < 3 → [1, 3, 4].getD m 0 = 3 → m = v) :=
  primary_search_sorted_column 3
    [1, 0, 0, 0, 0, 0, 0, 0, 3, 0, 0, 0, 0, 0, 0, 0, 4, 0, 0, 0, 0, 0, 0, 0]
    (fun m => [1, 3, 4].getD m 0) 3 1 64 (by decide) (by decide)
    (fun i j hij hj => by interval_cases j <;> interval_cases i <;> decide)
    (by decide) (by decide) (by decide)

/-- C13: on the table and the index that `main` builds from a permutation of
`0, ..., N - 1`, the secondary search of a target `t` below `N` returns `t`
itself, so that the test `targets[i] == search` of the measurement loop holds
and the step adds the result to the sum. -/
theorem secondary_search_returns_target (N : Nat) (sk table0 index0 : List Nat)
    (hsz : kRecordSize * N < U64) (hperm : sk.Perm (List.range N))
    (hlen : table0.length = kRecordSize * N) (hilen : index0.length = N) :
    ∃ table index, populate_table N sk table0 = .ok table ∧
      build_secondary_index N sk index0 = .ok index ∧
      ∀ t fuel, t < N → 64 ≤ fuel →
        secondary_binary_search N fuel index table t = .ok t ∧
        ∀ (targets : List Nat) (i sum : Nat), targets[i]? = some t →
          array_sec_step N fuel index table targets i sum = .ok ((sum + t) % U64) := by
  obtain ⟨hsk, _, _, _⟩ := perm_range_facts hperm
  obtain ⟨table, hbuild, hl, htab⟩ := populate_table_spec N sk table0 hsz hlen hsk
  obtain ⟨index, hibuild, hil, hidx⟩ := build_secondary_index_spec N sk index0 hperm hilen
  refine ⟨table, index, hbuild, hibuild, ?_⟩
  intro t fuel ht hfuel
  constructor
  · rw [secondary_search_built N sk table index t fuel hsz hperm htab hidx hfuel, if_pos ht]
  · intro targets i sum hti
    exact array_sec_step_eq N fuel sk index table targets i sum t hsz hperm htab hidx hfuel
      hti ht

/-- Witness of C13 with `N = 4` and the secondary keys `(2, 0, 3, 1)`. -/
theorem secondary_search_returns_target_witness :
    ∃ table index, populate_table 4 [2, 0, 3, 1] (List.replicate 32 5) = .ok table ∧
      build_secondary_index 4 [2, 0, 3, 1] (List.replicate 4 5) = .ok index ∧
      ∀ t fuel, t < 4 → 64 ≤ fuel →
        secondary_binary_search 4 fuel index table t = .ok t ∧
        ∀ (targets : List Nat) (i sum : Nat), targets[i]? = some t →
          array_sec_step 4 fuel index table targets i sum = .ok ((sum + t) % U64) :=
  secondary_search_returns_target 4 [2, 0, 3, 1] (List.replicate 32 5) (List.replicate 4 5)
    (by decide) (by decide) (by decide) (by decide)

/-- The wrapping sum of the first `n` targets is their sum modulo `2 ^ 64`. -/
theorem wrapping_sum_eq (targets : List Nat) :
    ∀ n, n ≤ targets.length → wrapping_sum targets n = (targets.take n).sum % U64 := by
  intro n
  induction n with
  | zero => intro _; simp [wrapping_sum]
  | succ n ih =>
    intro hn
    have hlt : n < targets.length := by omega
    have hg := getD_of_lt targets n hlt
    rw [wrapping_sum, ih (by omega), List.take_succ, List.sum_append, hg]
    simp only [Option.toList_some, List.sum_cons, List.sum_nil, Nat.add_zero]
    rw [Nat.mod_add_mod]

/-- C15: on the table and the index that `main` builds, for `M` targets that
are all below `N`, the array-primary loop and the array-secondary loop both
end with the sum of all targets modulo `2 ^ 64`. -/
theorem array_checksums_are_target_sum (N M fuel : Nat) (sk table0 index0 targets : List Nat)
    (hsz : kRecordSize * N < U64) (hperm : sk.Perm (List.range N))
    (hlen : table0.length = kRecordSize * N) (hilen : index0.length = N)
    (hM : targets.length = M) (ht : ∀ t, t ∈ targets → t < N) (hfuel : 64 ≤ fuel) :
    ∃ table index, populate_table N sk table0 = .ok table ∧
      build_secondary_index N sk index0 = .ok index ∧
      forLoop (array_pri_step N fuel table targets) M 0 = .ok (targets.sum % U64) ∧
      forLoop (array_sec_step N fuel index table targets) M 0
        = .ok (targets.sum % U64) := by
  obtain ⟨hsk, _, _, _⟩ := perm_range_facts hperm
  obtain ⟨table, hbuild, hl, htab⟩ := populate_table_spec N sk table0 hsz hlen hsk
  obtain ⟨index, hibuild, hil, hidx⟩ := build_secondary_index_spec N sk index0 hperm hilen
  have hget : ∀ i, i < M → targets[i]? = some (targets.getD i 0) ∧ targets.getD i 0 < N := by
    intro i hi
    have h := getD_of_lt targets i (by omega)
    exact ⟨h, ht _ (List.mem_iff_getElem?.mpr ⟨i, h⟩)⟩
  have hsum : wrapping_sum targets M = targets.sum % U64 := by
    rw [wrapping_sum_eq targets M (by omega), ← hM, List.take_length]
  refine ⟨table, index, hbuild, hibuild, ?_, ?_⟩
  · rw [← hsum]
    exact forLoop_wrapping_sum _ targets M
      (fun i sum hi => array_pri_step_eq N fuel table targets i sum _ hsz hl
        (fun j hj => (htab j hj).1) hfuel (hget i hi).1 (hget i hi).2)
  · rw [← hsum]
    exact forLoop_wrapping_sum _ targets M
      (fun i sum hi => array_sec_step_eq N fuel sk index table targets i sum _ hsz hperm
        htab hidx hfuel (hget i hi).1 (hget i hi).2)

/-- Witness of C15: four records and six lookups. -/
theorem array_checksums_are_target_sum_witness :
    ∃ table index, populate_table 4 [2, 0, 3, 1] (List.replicate 32 5) = .ok table ∧
      build_secondary_index 4 [2, 0, 3, 1] (List.replicate 4 5) = .ok index ∧
      forLoop (array_pri_step 4 64 table [0, 1, 2, 3, 3, 2]) 6 0
        = .ok ([0, 1, 2, 3, 3, 2].sum % U64) ∧
      forLoop (array_sec_step 4 64 index table [0, 1, 2, 3, 3, 2]) 6 0
        = .ok ([0, 1, 2, 3, 3, 2].sum % U64) :=
  array_checksums_are_target_sum 4 6 64 [2, 0, 3, 1] (List.replicate 32 5)
    (List.replicate 4 5) [0, 1, 2, 3, 3, 2] (by decide) (by decide) (by decide) (by decide)
    (by decide) (by decide) (by decide)

/-! ## Iteration counts and the bounds of the reads -/

/-- The loop reads nothing outside its arrays when every key read below `N`
succeeds. -/
theorem search_loop_no_fault (N : Nat) (key_at : Nat → Except Err Nat) (target : Nat)
    (hN : N + N < U64) (hkey : ∀ m, m < N → ∃ v, key_at m = .ok v) :
    ∀ fuel l r, l ≤ r → r ≤ N →
      search_loop N key_at target fuel l r ≠ .error .outOfBounds := by
  intro fuel
  induction fuel with
  | zero =>
    intro l r hl hr
    by_cases hlt : l < r
    · rw [search_loop_zero N key_at target l r hlt]
      simp
    · rw [search_loop_exit N key_at target _ l r hlt]
      simp
  | succ f ih =>
    intro l r hl hr
    by_cases hlt : l < r
    · rw [search_loop_succ N key_at target f l r hlt]
      cases hb : search_body key_at target l r with
      | ret m => simp
      | fault e =>
        exfalso
        have hm := mid_eq hN hl hr
        obtain ⟨v, hv⟩ := hkey ((l + r) / 2) (by omega)
        simp only [search_body, hm, hv] at hb
        split at hb
        · cases hb
        · split at hb <;> cases hb
      | next l1 r1 =>
        simp only
        obtain ⟨h1, h2, h3, h4⟩ := search_body_next N key_at target l r l1 r1 hN hlt hr hb
        exact ih l1 r1 h2 (by omega)
    · rw [search_loop_exit N key_at target _ l r hlt]
      simp

/-- The count of iterations of a search loop over `N` records, for any key
reads. -/
theorem search_loop_iterations (N : Nat) (key_at : Nat → Except Err Nat) (target : Nat)
    (hN : 2 * N < U64) (hkey : ∀ m, key_at m ≠ .error .outOfFuel) :
    (search_loop N key_at target (Nat.log2 N + 1) 0 N ≠ .error .outOfFuel ∧
      ∀ fuel, Nat.log2 N + 1 ≤ fuel →
        search_loop N key_at target fuel 0 N
          = search_loop N key_at target (Nat.log2 N + 1) 0 N) ∧
    (∀ n l r, bounds_after key_at target n 0 N = some (l, r) → l < r →
      n ≤ Nat.log2 N ∧
      ∀ l' r', search_body key_at target l r = .next l' r' → r' - l' ≤ (r - l) / 2) := by
  have hN2 : N + N < U64 := by omega
  have h1 := search_loop_fuel N key_at target hN2 hkey (Nat.log2 N + 1) 0 N (Nat.zero_le N)
    (Nat.le_refl N) (by simpa using Nat.lt_log2_self)
  refine ⟨⟨h1, ?_⟩, ?_⟩
  · intro fuel hfuel
    obtain ⟨d, rfl⟩ := Nat.exists_eq_add_of_le hfuel
    exact search_loop_more_fuel N key_at target _ d 0 N h1
  · intro n l r hb hlt
    obtain ⟨g1, g2, g3, g4⟩ := bounds_after_inv N key_at target hN2 n 0 N l r (Nat.zero_le N)
      (Nat.le_refl N) hb
    constructor
    · have hpow : 2 ^ n ≤ N := by
        have : 1 * 2 ^ n ≤ (r - l) * 2 ^ n := Nat.mul_le_mul_right _ (by omega)
        omega
      have hN0 : N ≠ 0 := by
        intro h0
        subst h0
        have := Nat.pos_pow_of_pos n (by decide : 0 < 2)
        omega
      exact (Nat.le_log2 hN0).mpr hpow
    · intro l' r' hnext
      exact (search_body_next N key_at target l r l' r' hN2 hlt g3 hnext).2.2.2

/-- C12: for `2 * N < 2 ^ 64`, any table content and any target, the loops of
the primary and of the secondary search end within `floor(log2 N) + 1`
executions of their body: with that much fuel they do not run out of it, and
more fuel gives the same result; an iteration that goes on at least halves the
width `r - l`; with `N = 0` the functions return without any execution of the
body. Running out of fuel means that the loop condition still holds after
`fuel` executions. -/
theorem search_iterations_bound (N : Nat) (index table : List Nat) (target : Nat)
    (hN : 2 * N < U64) :
    (primary_binary_search N (Nat.log2 N + 1) table target ≠ .error .outOfFuel ∧
      ∀ fuel, Nat.log2 N + 1 ≤ fuel →
        primary_binary_search N fuel table target
          = primary_binary_search N (Nat.log2 N + 1) table target) ∧
    (secondary_binary_search N (Nat.log2 N + 1) index table target ≠ .error .outOfFuel ∧
      ∀ fuel, Nat.log2 N + 1 ≤ fuel →
        secondary_binary_search N fuel index table target
          = secondary_binary_search N (Nat.log2 N + 1) index table target) ∧
    (∀ n l r, bounds_after (primary_key_at table) target n 0 N = some (l, r) → l < r →
      n ≤ Nat.log2 N ∧ ∀ l' r',
        search_body (primary_key_at table) target l r = .next l' r' →
          r' - l' ≤ (r - l) / 2) ∧
    (∀ n l r, bounds_after (secondary_key_at index table) target n 0 N = some (l, r) →
      l < r → n ≤ Nat.log2 N ∧ ∀ l' r',
        search_body (secondary_key_at index table) target l r = .next l' r' →
          r' - l' ≤ (r - l) / 2) ∧
    (∀ fuel, primary_binary_search N fuel table target = .error .outOfFuel ↔
      ∃ l r, bounds_after (primary_key_at table) target fuel 0 N = some (l, r) ∧ l < r) ∧
    (∀ fuel, secondary_binary_search N fuel index table target = .error .outOfFuel ↔
      ∃ l r, bounds_after (secondary_key_at index table) target fuel 0 N = some (l, r) ∧
        l < r) ∧
    primary_binary_search 0 0 table target = .ok 1 ∧
    secondary_binary_search 0 0 index table target = .ok 1 := by
  obtain ⟨p1, p2⟩ := search_loop_iterations N (primary_key_at table) target hN
    (primary_key_at_ne_outOfFuel table)
  obtain ⟨s1, s2⟩ := search_loop_iterations N (secondary_key_at index table) target hN
    (secondary_key_at_ne_outOfFuel index table)
  simp only [primary_binary_search, secondary_binary_search, primary_loop_eq,
    secondary_loop_eq]
  refine ⟨p1, s1, p2, s2, ?_, ?_, ?_, ?_⟩
  · intro fuel
    exact search_loop_outOfFuel_iff N (primary_key_at table) target
      (primary_key_at_ne_outOfFuel table) fuel 0 N
  · intro fuel
    exact search_loop_outOfFuel_iff N (secondary_key_at index table) target
      (secondary_key_at_ne_outOfFuel index table) fuel 0 N
  · rw [search_loop_exit 0 _ target 0 0 0 (Nat.lt_irrefl 0)]
    rfl
  · rw [search_loop_exit 0 _ target 0 0 0 (Nat.lt_irrefl 0)]
    rfl

/-- Witness of C12: five records, `floor(log2 5) + 1 = 3` iterations. -/
theorem search_iterations_bound_witness :
    primary_binary_search 5 (Nat.log2 5 + 1) (List.replicate 40 0) 7 ≠ .error .outOfFuel :=
  (search_iterations_bound 5 [0, 0, 0, 0, 0] (List.replicate 40 0) 7 (by decide)).1.1

/-- C14: with `N = kNumRecords` and `kRecordSize = 8`, at every iteration of
the loops of the primary and of the secondary search (bounds `l < r` reached
from `0` and `N`, midpoint `m`) `l <= m < r <= N` holds, `l + r` and
`m * kRecordSize + 1` are below `2 ^ 64`, the primary read is at an index below
`kRecordSize * N` and succeeds, the read of `index` is at a position below `N`
and succeeds, and when the entry read there is below `N` the read of the table
is at an index below `kRecordSize * N` and succeeds; so the primary search
never reads out of bounds, and neither does the secondary search when every
entry of `index` is below `N`. -/
theorem search_reads_in_bounds (index table : List Nat) (target : Nat)
    (hlen : table.length = kRecordSize * kNumRecords) (hilen : index.length = kNumRecords) :
    (∀ n l r m, bounds_after (primary_key_at table) target n 0 kNumRecords = some (l, r) →
      l < r → m = ((l + r) % U64) >>> 1 →
      l ≤ m ∧ m < r ∧ r ≤ kNumRecords ∧ l + r < U64 ∧ m * kRecordSize + 1 < U64 ∧
        (m * kRecordSize) % U64 < kRecordSize * kNumRecords ∧
        ∃ v, primary_key_at table m = .ok v) ∧
    (∀ n l r m, bounds_after (secondary_key_at index table) target n 0 kNumRecords
        = some (l, r) → l < r → m = ((l + r) % U64) >>> 1 →
      l ≤ m ∧ m < r ∧ r ≤ kNumRecords ∧ l + r < U64 ∧ m * kRecordSize + 1 < U64 ∧
        m < kNumRecords ∧
        ∃ p, read index m = .ok p ∧
          (p < kNumRecords → p * kRecordSize + 1 < U64 ∧
            ((p * kRecordSize) % U64 + 1) % U64 < kRecordSize * kNumRecords ∧
            ∃ v, secondary_key_at index table m = .ok v)) ∧
    (∀ fuel, primary_binary_search kNumRecords fuel table target ≠ .error .outOfBounds) ∧
    ((∀ p, p ∈ index → p < kNumRecords) →
      ∀ fuel, secondary_binary_search kNumRecords fuel index table target
        ≠ .error .outOfBounds) := by
  have hU := U64_eq
  have hN2 : kNumRecords + kNumRecords < U64 := by decide
  have hsz : kRecordSize * kNumRecords < U64 := by decide
  have hmid : ∀ l r : Nat, l < r → r ≤ kNumRecords →
      ((l + r) % U64) >>> 1 = (l + r) / 2 :=
    fun l r hlt hr => mid_eq hN2 (Nat.le_of_lt hlt) hr
  have hsec : ∀ m, m < kNumRecords → ∃ p, read index m = .ok p ∧ index[m]? = some p ∧
      (p < kNumRecords → p * kRecordSize + 1 < U64 ∧
        ((p * kRecordSize) % U64 + 1) % U64 < kRecordSize * kNumRecords ∧
        ∃ v, secondary_key_at index table m = .ok v) := by
    intro m hm
    obtain ⟨p, hp, hp'⟩ := read_lt index m (by omega)
    refine ⟨p, hp, hp', ?_⟩
    intro hpN
    simp only [kRecordSize, kNumRecords] at hlen hpN ⊢
    have e : ((p * 8) % U64 + 1) % U64 = p * 8 + 1 := by rw [U64_eq]; omega
    rw [e]
    refine ⟨by rw [U64_eq]; omega, by omega, ?_⟩
    obtain ⟨v, hv, _⟩ := read_lt table (p * 8 + 1) (by omega)
    refine ⟨v, ?_⟩
    simp only [secondary_key_at, hp, kRecordSize, e]
    exact hv
  refine ⟨?_, ?_, ?_, ?_⟩
  · intro n l r m hb hlt hm
    obtain ⟨_, _, g3, _⟩ := bounds_after_inv kNumRecords (primary_key_at table) target hN2
      n 0 kNumRecords l r (Nat.zero_le _) (Nat.le_refl _) hb
    rw [hmid l r hlt g3] at hm
    subst hm
    obtain ⟨h1, _⟩ := primary_key_at_eq kNumRecords table hsz hlen ((l + r) / 2) (by omega)
    refine ⟨by omega, by omega, g3, ?_, ?_, ?_, _, h1⟩
    · simp only [kNumRecords, U64_eq] at g3 ⊢; omega
    · simp only [kRecordSize, kNumRecords, U64_eq] at g3 ⊢; omega
    · simp only [kRecordSize, kNumRecords, U64_eq] at g3 ⊢; omega
  · intro n l r m hb hlt hm
    obtain ⟨_, _, g3, _⟩ := bounds_after_inv kNumRecords (secondary_key_at index table)
      target hN2 n 0 kNumRecords l r (Nat.zero_le _) (Nat.le_refl _) hb
    rw [hmid l r hlt g3] at hm
    subst hm
    obtain ⟨p, hp, _, hrest⟩ := hsec ((l + r) / 2) (by omega)
    refine ⟨by omega, by omega, g3, ?_, ?_, by omega, p, hp, hrest⟩
    · simp only [kNumRecords, U64_eq] at g3 ⊢; omega
    · simp only [kRecordSize, kNumRecords, U64_eq] at g3 ⊢; omega
  · intro fuel
    rw [primary_binary_search, primary_loop_eq]
    exact search_loop_no_fault kNumRecords (primary_key_at table) target hN2
      (fun m hm => ⟨_, (primary_key_at_eq kNumRecords table hsz hlen m hm).1⟩)
      fuel 0 kNumRecords (Nat.zero_le _) (Nat.le_refl _)
  · intro hindex fuel
    rw [secondary_binary_search, secondary_loop_eq]
    refine search_loop_no_fault kNumRecords (secondary_key_at index table) target hN2 ?_
      fuel 0 kNumRecords (Nat.zero_le _) (Nat.le_refl _)
    intro m hm
    obtain ⟨p, _, hp', hrest⟩ := hsec m hm
    exact (hrest (hindex p (List.mem_iff_getElem?.mpr ⟨m, hp'⟩))).2.2

/-- Witness of C14: a table and an index of the size of the program, filled
with zeros. -/
theorem search_reads_in_bounds_witness :
    (∀ fuel, primary_binary_search kNumRecords fuel
        (List.replicate (kRecordSize * kNumRecords) 0) 5 ≠ .error .outOfBounds) ∧
    ((∀ p, p ∈ List.replicate kNumRecords 0 → p < kNumRecords) →
      ∀ fuel, secondary_binary_search kNumRecords fuel (List.replicate kNumRecords 0)
        (List.replicate (kRecordSize * kNumRecords) 0) 5 ≠ .error .outOfBounds) :=
  (search_reads_in_bounds (List.replicate kNumRecords 0)
    (List.replicate (kRecordSize * kNumRecords) 0) 5 (List.length_replicate _ _)
    (List.length_replicate _ _)).2.2

end BinarySearchEval
